import Mathlib

/-!
A shallow embedding of the cookie-store HTTP service (Go, gorilla/mux over
Redis) together with proofs about its four handlers, its dispatcher and its
authentication middleware.

Modelling conventions:
* The Redis keyspace is an association list from keys to hashes; a hash is an
  association list from fields to values (`RVal`).  Redis guarantees unique
  keys and unique hash fields; `StoreWF` states that discipline where a proof
  needs it.
* A hash value is either a raw string (`RVal.str`; the stats counters, written
  and re-parsed in decimal exactly as `HIncrBy` and `strconv.Atoi` do) or a
  marshalled cookie record (`RVal.cookie`).  JSON serialization is abstracted:
  `json.Marshal` of a record is injective, and `json.Unmarshal` into
  `CookieData` succeeds exactly on marshalled records, so the record itself is
  stored and `jsonUnmarshalCookie` projects it back out.
* `KEYS` glob patterns follow Redis's `stringmatchlen`: `*`, `?`, `[...]`
  classes (with `^` negation and ranges) and backslash escapes, including the
  C loop's end-of-subject and unclosed-class edge behaviour.  `GlobFree`
  names the strings free of all four metacharacters.
* Integer parsing distinguishes the two parsers of the source: `goAtoi?` is
  Go's `strconv.Atoi` with its int64 range failure (qty parsing, the stats
  read-back of Remove via go-redis `.Int()`, and the GetStats filter), while
  `atoi?` is the unbounded decimal read Redis itself performs on `HIncrBy`
  operands — its int64 bound, reachable only after ~2^63 unit increments of
  one counter, is idealized away.
* Redis command failures are modelled only where a claim depends on them (the
  two failure flags threaded into `SaveCookie`); everywhere else the
  no-failure executions of the handlers are modelled.  A failed command leaves
  the keyspace unchanged.
-/

namespace NeutrinoCookie

/-- A cookie record, `CookieData` in the source: the stored value, its
category and the Unix timestamp taken at save time. -/
structure CookieData where
  cookie : String
  category : String
  timestamp : Int
deriving DecidableEq, Repr

/-- A value held in a Redis hash field: either a plain string or a marshalled
`CookieData` record (see the serialization convention in the file header). -/
inductive RVal where
  | str (s : String)
  | cookie (c : CookieData)
deriving DecidableEq, Repr

/-- `json.Marshal` of a cookie record (abstract serialization). -/
def jsonMarshalCookie (c : CookieData) : RVal := RVal.cookie c

/-- `json.Unmarshal` of a stored hash value into `CookieData`: succeeds
exactly on marshalled records, fails on any other payload. -/
def jsonUnmarshalCookie : RVal → Option CookieData
  | RVal.cookie c => some c
  | RVal.str _ => none

/-- A Redis hash: field name to value, unique fields in a real keyspace. -/
abbrev Hash := List (String × RVal)

/-- The Redis keyspace: key to hash, unique keys in a real keyspace. -/
abbrev Store := List (String × Hash)

/-- Set a field of a hash, overwriting an existing binding in place. -/
def hashSet (h : Hash) (f : String) (v : RVal) : Hash :=
  match h with
  | [] => [(f, v)]
  | (f', v') :: rest => if f' = f then (f, v) :: rest else (f', v') :: hashSet rest f v

/-- Read a field of a hash. -/
def hashGet (h : Hash) (f : String) : Option RVal :=
  match h with
  | [] => none
  | (f', v') :: rest => if f' = f then some v' else hashGet rest f

/-- The hash stored at a key; Redis reports an empty hash for a missing key. -/
def storeGetHash (s : Store) (k : String) : Hash :=
  match s with
  | [] => []
  | (k', h) :: rest => if k' = k then h else storeGetHash rest k

/-- Redis `HSET`: creates the key when absent. -/
def hset (s : Store) (k f : String) (v : RVal) : Store :=
  match s with
  | [] => [(k, [(f, v)])]
  | (k', h) :: rest => if k' = k then (k, hashSet h f v) :: rest else (k', h) :: hset rest k f v

/-- Redis `HGET`. -/
def hget (s : Store) (k f : String) : Option RVal :=
  hashGet (storeGetHash s k) f

/-- Redis `HEXISTS`. -/
def hexists (s : Store) (k f : String) : Bool :=
  (hget s k f).isSome

/-- Redis `HGETALL`. -/
def hgetall (s : Store) (k : String) : Hash :=
  storeGetHash s k

/-- Redis `HDEL`: removes the field, and removes the key entirely when the
hash becomes empty (Redis keeps no empty keys). -/
def hdel (s : Store) (k f : String) : Store :=
  match s with
  | [] => []
  | (k', h) :: rest =>
    if k' = k then
      let h' := h.filter (fun p => p.1 != f)
      if h'.isEmpty then rest else (k, h') :: rest
    else (k', h) :: hdel rest k f

/-- Little-endian base-10 digits of `n`, computed with explicit fuel so that
the definition is structural (the initial fuel `n` always suffices). -/
def digitsRev (fuel n : Nat) : List Nat :=
  match fuel, n with
  | _, 0 => []
  | 0, _ + 1 => []
  | f + 1, m + 1 => (m + 1) % 10 :: digitsRev f ((m + 1) / 10)

/-- Decimal digit characters of `n`, most significant first. -/
def natDigitsStr (n : Nat) : List Char :=
  ((digitsRev n n).map Nat.digitChar).reverse

/-- Decimal rendering of an integer, as Redis `HIncrBy` stores counters and
`strconv.Itoa` would print them. -/
def intToString (n : Int) : String :=
  if n < 0 then String.mk ('-' :: natDigitsStr n.natAbs)
  else if n = 0 then "0"
  else String.mk (natDigitsStr n.toNat)

/-- One decimal digit of a character, if it is one. -/
def digitOfChar? (c : Char) : Option Nat :=
  if '0' ≤ c ∧ c ≤ '9' then some (c.toNat - '0'.toNat) else none

/-- Accumulator pass of decimal parsing, most significant digit first. -/
def parseNatAux (acc : Nat) : List Char → Option Nat
  | [] => some acc
  | c :: cs =>
    match digitOfChar? c with
    | some d => parseNatAux (acc * 10 + d) cs
    | none => none

/-- Parse a non-empty all-digit character list. -/
def parseNat? (l : List Char) : Option Nat :=
  match l with
  | [] => none
  | _ :: _ => parseNatAux 0 l

/-- The decimal-integer syntax shared by `strconv.Atoi` and Redis's own
integer read: optional sign followed by at least one digit, value unbounded.
This unbounded form models the parse Redis performs on `HIncrBy` operands
(its int64 bound, reachable only through ~2^63 unit increments of a single
counter, is idealized away); Go-side `strconv.Atoi` call sites use `goAtoi?`
below, which adds the int64 range failure. -/
def atoi? (s : String) : Option Int :=
  match s.data with
  | [] => none
  | c :: cs =>
    if c = '-' then (parseNat? cs).map (fun n => -(n : Int))
    else if c = '+' then (parseNat? cs).map (fun n => (n : Int))
    else (parseNat? (c :: cs)).map (fun n => (n : Int))

/-- Go's `strconv.Atoi` on a 64-bit platform: the decimal syntax above plus
`ParseInt`'s range check — a value outside int64 fails with `ErrRange`, which
the callers treat like any other parse error. -/
def goAtoi? (s : String) : Option Int :=
  match atoi? s with
  | none => none
  | some v =>
    if -9223372036854775808 ≤ v ∧ v ≤ 9223372036854775807 then some v else none

/-- Redis's integer read of a stored hash value (a marshalled record is not
a decimal integer, so parsing it fails). -/
def atoiRVal : RVal → Option Int
  | RVal.str s => atoi? s
  | RVal.cookie _ => none

/-- `strconv.Atoi` on a stored hash value, as go-redis's `.Int()` performs
it (a marshalled record is not a decimal integer, so parsing it fails). -/
def goAtoiRVal : RVal → Option Int
  | RVal.str s => goAtoi? s
  | RVal.cookie _ => none

/-- The integer Redis `HIncrBy` sees in a hash field: a missing field counts
as 0, a non-integer payload is an error. -/
def statRead (s : Store) (k f : String) : Option Int :=
  match hget s k f with
  | none => some 0
  | some v => atoiRVal v

/-- Redis `HINCRBY`: atomically add `delta` to the decimal integer held in a
field (0 when the field is missing); errors on a non-integer payload. -/
def hincrby (s : Store) (k f : String) (delta : Int) : Option (Store × Int) :=
  match statRead s k f with
  | none => none
  | some n => some (hset s k f (RVal.str (intToString (n + delta))), n + delta)

/-- Boolean list-prefix test used to reason about glob patterns and key
namespaces. -/
def strStarts : List Char → List Char → Bool
  | [], _ => true
  | _ :: _, [] => false
  | a :: ps, b :: ks => a = b && strStarts ps ks

/-- The class-body scan of Redis's `stringmatchlen`, entered just past `[`
(and past an optional `^`): walk the pattern accumulating whether `c` matches
a class item — a backslash-escaped character, an `a-b` range (bounds accepted
in either order), or a plain character — and stop past the closing `]`; an
unclosed class consumes the rest of the pattern, exactly as the C loop's
back-up-and-break does. Returns the accumulated flag and the pattern
remainder. -/
def classScan (c : Char) : List Char → Bool → Bool × List Char
  | [], m => (m, [])
  | '\\' :: d :: ps, m => classScan c ps (m || (d == c))
  | p :: ps, m =>
    if p = ']' then (m, ps)
    else
      match ps with
      | q :: b :: ps' =>
        if q = '-' then
          classScan c ps'
            (m || (if p ≤ b then decide (p ≤ c ∧ c ≤ b) else decide (b ≤ c ∧ c ≤ p)))
        else classScan c (q :: b :: ps') (m || (p == c))
      | [q] => classScan c [q] (m || (p == c))
      | [] => (m || (p == c), [])
termination_by l _ => l.length

/-- One non-`*` consumption step of `stringmatchlen`: whether the leading
pattern item matches the subject character `c`, and the pattern remainder
past the item. `?` matches anything; `[` opens a class, negated by a leading
`^`; `\` escapes the next character, a trailing `\` standing for itself. -/
def globStep (p : Char) (ps : List Char) (c : Char) : Bool × List Char :=
  if p = '?' then (true, ps)
  else if p = '[' then
    match ps with
    | [] => (false, [])
    | q :: ps' =>
      if q = '^' then (!(classScan c ps' false).1, (classScan c ps' false).2)
      else ((classScan c (q :: ps') false).1, (classScan c (q :: ps') false).2)
  else if p = '\\' then
    match ps with
    | [] => (('\\' == c), [])
    | d :: ps' => ((d == c), ps')
  else ((p == c), ps)

/-- Redis's `stringmatchlen` (the matcher behind `KEYS`), with explicit fuel
for structural recursion — fuel `p.length + 1` always suffices since every
recursive call strictly shrinks the pattern. Mirrors the C loop: `*` collapses
consecutive stars and tries every subject suffix; each other item consumes one
subject character via `globStep`; when the subject is exhausted after a
consumption, trailing stars are skipped; a nonempty pattern never matches the
initially empty subject. -/
def globFuel : Nat → List Char → List Char → Bool
  | 0, _, _ => false
  | _ + 1, [], s => s.isEmpty
  | _ + 1, _ :: _, [] => false
  | fuel + 1, p :: ps, c :: s =>
    if p = '*' then
      (ps.dropWhile (fun x => x == '*')).isEmpty ||
        (c :: s).tails.any (fun t => globFuel fuel (ps.dropWhile (fun x => x == '*')) t)
    else
      (globStep p ps c).1 &&
        (if s.isEmpty then (globStep p ps c).2.all (fun x => x == '*')
         else globFuel fuel (globStep p ps c).2 s)

/-- Redis `KEYS`-style glob matching of a subject against a pattern. -/
def globMatch (p s : List Char) : Bool := globFuel (p.length + 1) p s

/-- Redis `KEYS pattern`: every existing key matching the glob, in
enumeration order (the model's order is the association-list order; the
claims never assume a particular order). -/
def keysMatching (s : Store) (pat : String) : List String :=
  (s.map Prod.fst).filter (fun k => globMatch pat.data k.data)

/-- `generateCookieKey` from the source: `cookies:<user>:<type>:<category>`. -/
def generateCookieKey (userID cookieType category : String) : String :=
  "cookies:" ++ userID ++ ":" ++ cookieType ++ ":" ++ category

/-- `generateStatsKey` from the source: `stats:<user>:<type>`. -/
def generateStatsKey (userID cookieType : String) : String :=
  "stats:" ++ userID ++ ":" ++ cookieType

/-- The common stem of every cookie key of one `(userId, cookieType)`
namespace; the removal and unfiltered-list patterns append `*` to it. -/
def listBase (userID cookieType : String) : String :=
  "cookies:" ++ userID ++ ":" ++ cookieType ++ ":"

/-- An HTTP response, reduced to the payloads the handlers produce. -/
inductive Response where
  | success
  | error (message : String) (status : Nat)
  | cookieList (cookies : List CookieData)
  | stats (details : List (String × Int))
deriving DecidableEq, Repr

/-- A parsed request body.  Go's decoder fills absent JSON fields with `""`,
so every syntactically valid body yields an operation tag, a category and a
cookie value (the remove handler simply ignores the category field);
`malformed` is a body the JSON decoder rejects. -/
inductive Body where
  | malformed
  | parsed (operation category cookie : String)
deriving DecidableEq, Repr

/-- `SaveCookie` handler.  `hsetFails` and `incrFails` model a Redis failure
of, respectively, the record `HSet` and the stats `HIncrBy` (a failed command
leaves the keyspace unchanged); the `json.Marshal` step of the source cannot
fail on this struct, so its dead error branch is not modelled. -/
def SaveCookie (userID cookieType : String) (body : Body) (timestamp : Int)
    (hsetFails incrFails : Bool) (store : Store) : Response × Store :=
  match body with
  | Body.malformed => (Response.error "Invalid JSON" 400, store)
  | Body.parsed op cat cookie =>
    if op ≠ "saveCookie" ∨ cookie = "" then (Response.error "Invalid request" 400, store)
    else
      let category := if cat = "" then "default" else cat
      let cookieData : CookieData := ⟨cookie, category, timestamp⟩
      let cookieKey := generateCookieKey userID cookieType category
      if hsetFails then (Response.error "Failed to save cookie" 500, store)
      else
        let store1 := hset store cookieKey cookie (jsonMarshalCookie cookieData)
        let store2 :=
          if incrFails then store1
          else
            match hincrby store1 (generateStatsKey userID cookieType) category 1 with
            | some (s', _) => s'
            | none => store1
        (Response.success, store2)

/-- The category the remove handler extracts from a hash before deleting from
it: `HGet` then `json.Unmarshal`, the empty string when either step fails. -/
def extractCategory (store : Store) (k cookie : String) : String :=
  match hget store k cookie with
  | some v =>
    match jsonUnmarshalCookie v with
    | some c => c.category
    | none => ""
  | none => ""

/-- The scan loop of `RemoveCookie`: walk the matched keys in order, delete
the cookie from the first hash containing it and stop, also reporting the
category recorded in the deleted record (`""` when nothing was deleted). -/
def findAndRemove (store : Store) (cookie : String) : List String → Store × String
  | [] => (store, "")
  | k :: rest =>
    if hexists store k cookie then
      (hdel store k cookie, extractCategory store k cookie)
    else findAndRemove store cookie rest

/-- The stats-update block of `RemoveCookie`: best-effort decrement of the
removed record's category (a failed `HIncrBy` is only logged), then deletion
of the counter when the re-read value parses non-positive (a failed re-read
skips the deletion). -/
def removeUpdateStats (store1 : Store) (statsKey removedCategory : String) : Store :=
  let store2 :=
    match hincrby store1 statsKey removedCategory (-1) with
    | some (s', _) => s'
    | none => store1
  match hget store2 statsKey removedCategory with
  | some v =>
    match goAtoiRVal v with
    | some count => if count ≤ 0 then hdel store2 statsKey removedCategory else store2
    | none => store2
  | none => store2

/-- `RemoveCookie` handler (no-failure executions; errors of `Keys`, `HDel`
and the stats commands are not injected, matching the claims' "absent
backing-store command failures" reading). -/
def RemoveCookie (userID cookieType : String) (body : Body) (store : Store) :
    Response × Store :=
  match body with
  | Body.malformed => (Response.error "Invalid JSON" 400, store)
  | Body.parsed op _ cookie =>
    if op ≠ "removeCookie" ∨ cookie = "" then (Response.error "Invalid request" 400, store)
    else
      let keys := keysMatching store (listBase userID cookieType ++ "*")
      let found := findAndRemove store cookie keys
      let store1 := found.1
      let removedCategory := found.2
      if removedCategory = "" then (Response.success, store1)
      else
        (Response.success,
          removeUpdateStats store1 (generateStatsKey userID cookieType) removedCategory)

/-- The collection loop of `GetCookies`: `HGetAll` every matched key and keep
every value that unmarshals into a record. -/
def collectCookies (store : Store) : List String → List CookieData
  | [] => []
  | k :: rest =>
    (hgetall store k).filterMap (fun p => jsonUnmarshalCookie p.2) ++ collectCookies store rest

/-- Swap two positions of a list (no-op when an index is out of range). -/
def swapList {α : Type} (l : List α) (i j : Nat) : List α :=
  match l[i]?, l[j]? with
  | some a, some b => (l.set i b).set j a
  | _, _ => l

/-- The loop of Go's `rand.Shuffle`: for `i` from `n-1` down to `1`, swap
position `i` with a drawn position `rnd i % (i+1)` (the draw is `Intn (i+1)`,
always below `i+1`; an arbitrary draw function models the seeded PRNG). -/
def shuffleAux {α : Type} (rnd : Nat → Nat) (l : List α) : Nat → List α
  | 0 => l
  | i + 1 => shuffleAux rnd (swapList l (i + 1) (rnd (i + 1) % (i + 2))) i

/-- Go's `rand.Shuffle` over a list. -/
def shuffleGo {α : Type} (rnd : Nat → Nat) (l : List α) : List α :=
  shuffleAux rnd l (l.length - 1)

/-- `GetCookies` handler.  Query parameters arrive as strings, `""` meaning
absent, exactly as `URL.Query().Get` reports them. -/
def GetCookies (userID cookieType : String) (qtyStr randomStr category : String)
    (rnd : Nat → Nat) (store : Store) : Response :=
  let qty? : Option Int :=
    if qtyStr = "" then some 0
    else
      match goAtoi? qtyStr with
      | none => none
      | some q => if q ≤ 0 then none else some q
  match qty? with
  | none => Response.error "Invalid qty parameter" 400
  | some qty =>
    let isRandom := randomStr = "true"
    let pat :=
      if category ≠ "" then generateCookieKey userID cookieType category
      else listBase userID cookieType ++ "*"
    let keys := keysMatching store pat
    let cookies := collectCookies store keys
    let cookies := if isRandom ∧ 0 < cookies.length then shuffleGo rnd cookies else cookies
    let cookies :=
      if 0 < qty ∧ qty < (cookies.length : Int) then cookies.take qty.toNat else cookies
    Response.cookieList cookies

/-- `GetStats` handler: parse every stored counter, keeping only positive
parses. -/
def GetStats (userID cookieType : String) (store : Store) : Response :=
  let stats := hgetall store (generateStatsKey userID cookieType)
  let details := stats.filterMap (fun p =>
    match goAtoiRVal p.2 with
    | some count => if 0 < count then some (p.1, count) else none
    | none => none)
  Response.stats details

/-- `HandleCookieOperations`: peek at the operation tag of the body and
dispatch to the save or remove handler, which re-reads the same body. -/
def HandleCookieOperations (userID cookieType : String) (body : Body) (timestamp : Int)
    (hsetFails incrFails : Bool) (store : Store) : Response × Store :=
  match body with
  | Body.malformed => (Response.error "Invalid JSON" 400, store)
  | Body.parsed op cat cookie =>
    if op = "saveCookie" then
      SaveCookie userID cookieType (Body.parsed op cat cookie) timestamp hsetFails incrFails store
    else if op = "removeCookie" then
      RemoveCookie userID cookieType (Body.parsed op cat cookie) store
    else (Response.error "Invalid operation" 400, store)

/-- The `Authenticate` middleware: compare the `x-api-key` header against the
configured secret and run the wrapped handler only on a match. -/
def Authenticate (configKey headerKey : String) (handler : Store → Response × Store)
    (store : Store) : Response × Store :=
  if headerKey ≠ configKey then (Response.error "Unauthorized" 401, store)
  else handler store

/-- HTTP method of a request (only the two the router registers). -/
inductive Method where
  | GET
  | POST
deriving DecidableEq, Repr

/-- An inbound HTTP request, reduced to what the routed handlers consume.
`statsPath` distinguishes `/cookies/{t}/{u}/stats` from `/cookies/{t}/{u}`;
`apiKey` is the `x-api-key` header, `none` when absent (`Header.Get` then
yields `""`). -/
structure Request where
  method : Method
  userID : String
  cookieType : String
  statsPath : Bool
  apiKey : Option String
  body : Body
  qtyStr : String
  randomStr : String
  categoryQ : String

/-- Per-request environment: the clock reading, the seeded PRNG draws, and
the injected command failures of the save path. -/
structure Env where
  timestamp : Int
  rnd : Nat → Nat
  hsetFails : Bool
  incrFails : Bool

/-- The mux router of `main`: POST on the combined path dispatches by
operation tag, GET lists, GET on the stats sub-path reports stats, all behind
the authentication middleware; mux answers 405 itself for a POST on the
stats sub-path, whose only registered method is GET. -/
def route (configKey : String) (req : Request) (env : Env) (store : Store) :
    Response × Store :=
  let headerKey := req.apiKey.getD ""
  match req.method, req.statsPath with
  | Method.POST, false =>
    Authenticate configKey headerKey
      (fun s => HandleCookieOperations req.userID req.cookieType req.body env.timestamp
        env.hsetFails env.incrFails s) store
  | Method.GET, false =>
    Authenticate configKey headerKey
      (fun s => (GetCookies req.userID req.cookieType req.qtyStr req.randomStr req.categoryQ
        env.rnd s, s)) store
  | Method.GET, true =>
    Authenticate configKey headerKey
      (fun s => (GetStats req.userID req.cookieType s, s)) store
  | Method.POST, true => (Response.error "Method Not Allowed" 405, store)

/-- The keyspace states reachable from an empty Redis through the public HTTP
surface. -/
inductive Reachable : Store → Prop where
  | init : Reachable []
  | step (configKey : String) (req : Request) (env : Env) (store : Store) :
      Reachable store → Reachable (route configKey req env store).2

/-- The shape Redis itself guarantees of a keyspace: unique keys, and unique
fields within each hash. -/
def StoreWF (s : Store) : Prop :=
  (s.map Prod.fst).Nodup ∧ ∀ e ∈ s, (e.2.map Prod.fst).Nodup

instance : DecidablePred StoreWF := fun s =>
  inferInstanceAs (Decidable (_ ∧ _))

/-- A string free of every glob metacharacter Redis's matcher interprets:
`*`, `?`, the class opener `[` and the escape `\`. -/
def GlobFree (s : String) : Prop :=
  '*' ∉ s.data ∧ '?' ∉ s.data ∧ '[' ∉ s.data ∧ '\\' ∉ s.data

instance : DecidablePred GlobFree := fun s =>
  inferInstanceAs (Decidable (_ ∧ _ ∧ _ ∧ _))

/-- One stored record is coherent with the key it lives under, relative to a
`(userId, cookieType)` namespace: it is a marshalled record, keyed by its own
value, and its key is that namespace's key for its embedded category. -/
def recordOK (userID cookieType k : String) (p : String × RVal) : Bool :=
  match p.2 with
  | RVal.cookie c => c.cookie == p.1 && k == generateCookieKey userID cookieType c.category
  | RVal.str _ => false

/-- The storage discipline `SaveCookie` maintains inside one namespace: every
hash whose key extends that namespace's stem holds only coherent records. -/
def NamespaceWF (store : Store) (userID cookieType : String) : Prop :=
  ∀ e ∈ store, strStarts (listBase userID cookieType).data e.1.data = true →
    ∀ p ∈ e.2, recordOK userID cookieType e.1 p = true

instance (store : Store) (u ct : String) : Decidable (NamespaceWF store u ct) :=
  List.decidableBAll _ store

/-- A character list containing no glob metacharacter. -/
def metaFree (l : List Char) : Prop :=
  ∀ c ∈ l, c ≠ '*' ∧ c ≠ '?' ∧ c ≠ '[' ∧ c ≠ '\\'

instance (l : List Char) : Decidable (metaFree l) :=
  List.decidableBAll _ l

/-- Value of a little-endian digit list. -/
def ofDigs : List Nat → Nat
  | [] => 0
  | d :: ds => d + 10 * ofDigs ds

/-- A record stored under a cookie key is a marshalled record keyed by its
own value, with a non-empty embedded category that is exactly the category
segment its key was generated from. -/
def CookieEntryOK (k : String) (p : String × RVal) : Prop :=
  ∃ c, p.2 = RVal.cookie c ∧ c.cookie = p.1 ∧ c.category ≠ "" ∧
    ∃ u ct, k = generateCookieKey u ct c.category

/-- A stats counter is the decimal rendering of a positive integer. -/
def StatsEntryOK (p : String × RVal) : Prop :=
  ∃ m : Int, p.2 = RVal.str (intToString m) ∧ 0 < m

/-- The invariant every reachable keyspace satisfies. -/
def Inv (s : Store) : Prop :=
  StoreWF s ∧
  ∀ e ∈ s,
    (strStarts ("cookies:" : String).data e.1.data = true → ∀ p ∈ e.2, CookieEntryOK e.1 p) ∧
    (strStarts ("stats:" : String).data e.1.data = true → ∀ p ∈ e.2, StatsEntryOK p)

/-- A two-category keyspace used by the C1 witness: the same value stored under
two categories of one namespace. -/
def twoCatStore : Store :=
  [(generateCookieKey "u" "t" "a", [("v1", RVal.cookie ⟨"v1", "a", 1⟩)]),
   (generateCookieKey "u" "t" "b", [("v1", RVal.cookie ⟨"v1", "b", 2⟩)])]

/-! ### String and prefix facts -/

theorem strData_append (a b : String) : (a ++ b).data = a.data ++ b.data := by
  cases a; cases b; rfl

theorem strExt {a b : String} (h : a.data = b.data) : a = b := by
  cases a; cases b; exact congrArg String.mk h

theorem strStarts_iff : ∀ p k : List Char, strStarts p k = true ↔ ∃ t, k = p ++ t := by
  intro p
  induction p with
  | nil => intro k; simp [strStarts]
  | cons a ps ih =>
    intro k
    cases k with
    | nil => simp [strStarts]
    | cons b ks =>
      simp only [strStarts, Bool.and_eq_true, decide_eq_true_eq, ih, List.cons_append]
      constructor
      · rintro ⟨rfl, t, rfl⟩; exact ⟨t, rfl⟩
      · rintro ⟨t, ht⟩
        injection ht with h1 h2
        exact ⟨h1.symm, t, h2⟩

theorem strStarts_append_self (p t : List Char) : strStarts p (p ++ t) = true :=
  (strStarts_iff p (p ++ t)).2 ⟨t, rfl⟩

theorem strStarts_refl (p : List Char) : strStarts p p = true := by
  simpa using strStarts_append_self p []

theorem strStarts_mono {a b k : List Char} (h : strStarts (a ++ b) k = true) :
    strStarts a k = true := by
  obtain ⟨t, rfl⟩ := (strStarts_iff _ _).1 h
  rw [List.append_assoc]
  exact strStarts_append_self a (b ++ t)

theorem cookies_data : ("cookies:" : String).data = ['c', 'o', 'o', 'k', 'i', 'e', 's', ':'] :=
  rfl

theorem stats_data : ("stats:" : String).data = ['s', 't', 'a', 't', 's', ':'] := rfl

theorem statsKey_data (u ct : String) :
    (generateStatsKey u ct).data = 's' :: ('t' :: ('a' :: ('t' :: ('s' :: (':' :: (u.data ++ (':' :: ct.data))))))) := by
  simp [generateStatsKey, strData_append]

theorem cookieKey_data (u ct c : String) :
    (generateCookieKey u ct c).data =
      'c' :: ('o' :: ('o' :: ('k' :: ('i' :: ('e' :: ('s' :: (':' :: (u.data ++ (':' :: (ct.data ++ (':' :: c.data))))))))))) := by
  simp [generateCookieKey, strData_append]

theorem listBase_data (u ct : String) :
    (listBase u ct).data =
      'c' :: ('o' :: ('o' :: ('k' :: ('i' :: ('e' :: ('s' :: (':' :: (u.data ++ (':' :: (ct.data ++ [':'])))))))))) := by
  simp [listBase, strData_append]

theorem cookieKey_eq_listBase_append (u ct c : String) :
    generateCookieKey u ct c = listBase u ct ++ c := by
  apply strExt
  simp [cookieKey_data, listBase_data, strData_append]

theorem cookieKey_category_inj {u ct c₁ c₂ : String}
    (h : generateCookieKey u ct c₁ = generateCookieKey u ct c₂) : c₁ = c₂ := by
  have hd := congrArg String.data h
  rw [cookieKey_data, cookieKey_data] at hd
  simp only [List.cons.injEq, true_and] at hd
  have h1 := List.append_cancel_left hd
  injection h1 with _ h2
  have h3 := List.append_cancel_left h2
  injection h3 with _ h4
  exact strExt h4

theorem ne_statsKey_of_cookies {k : String}
    (h : strStarts ("cookies:" : String).data k.data = true) (u ct : String) :
    k ≠ generateStatsKey u ct := by
  intro he
  obtain ⟨t, ht⟩ := (strStarts_iff _ _).1 h
  rw [he, statsKey_data, cookies_data] at ht
  simp at ht

theorem cookieKey_starts_cookies (u ct c : String) :
    strStarts ("cookies:" : String).data (generateCookieKey u ct c).data = true := by
  rw [cookieKey_data, cookies_data]
  exact (strStarts_iff _ _).2 ⟨_, rfl⟩

theorem statsKey_not_starts_cookies (u ct : String) :
    strStarts ("cookies:" : String).data (generateStatsKey u ct).data = false := by
  rw [statsKey_data, cookies_data]
  rfl

theorem statsKey_not_starts_listBase (u ct u' ct' : String) :
    strStarts (listBase u ct).data (generateStatsKey u' ct').data = false := by
  rw [statsKey_data, listBase_data]
  rfl

theorem cookieKey_not_starts_stats (u ct c : String) :
    strStarts ("stats:" : String).data (generateCookieKey u ct c).data = false := by
  rw [cookieKey_data, stats_data]
  rfl

theorem statsKey_starts_stats (u ct : String) :
    strStarts ("stats:" : String).data (generateStatsKey u ct).data = true := by
  rw [statsKey_data, stats_data]
  exact (strStarts_iff _ _).2 ⟨_, rfl⟩

/-! ### Hash-level lemmas -/

theorem hashGet_hashSet_self (h : Hash) (f : String) (v : RVal) :
    hashGet (hashSet h f v) f = some v := by
  induction h with
  | nil => simp [hashSet, hashGet]
  | cons p rest ih =>
    obtain ⟨f', v'⟩ := p
    by_cases hf : f' = f
    · simp [hashSet, hashGet, hf]
    · simp [hashSet, hashGet, hf, ih]

theorem hashGet_hashSet_ne (h : Hash) {f g : String} (v : RVal) (hne : g ≠ f) :
    hashGet (hashSet h f v) g = hashGet h g := by
  have hfg : f ≠ g := Ne.symm hne
  induction h with
  | nil => simp [hashSet, hashGet, hfg]
  | cons p rest ih =>
    obtain ⟨f', v'⟩ := p
    by_cases hf : f' = f
    · subst hf
      simp [hashSet, hashGet, hfg]
    · simp only [hashSet, if_neg hf]
      by_cases hg : f' = g
      · simp [hashGet, hg]
      · simp [hashGet, hg, ih]

theorem mem_hashSet {h : Hash} {f : String} {v : RVal} {p : String × RVal}
    (hp : p ∈ hashSet h f v) : p = (f, v) ∨ p ∈ h := by
  induction h with
  | nil => simpa [hashSet] using hp
  | cons q rest ih =>
    obtain ⟨f', v'⟩ := q
    by_cases hf : f' = f
    · rcases (by simpa [hashSet, hf] using hp : p = (f, v) ∨ p ∈ rest) with h1 | h1
      · exact Or.inl h1
      · exact Or.inr (List.mem_cons_of_mem _ h1)
    · rcases (by simpa [hashSet, hf] using hp : p = (f', v') ∨ p ∈ hashSet rest f v) with h1 | h1
      · exact Or.inr (by simp [h1])
      · rcases ih h1 with h2 | h2
        · exact Or.inl h2
        · exact Or.inr (List.mem_cons_of_mem _ h2)

theorem mem_fields_hashSet {h : Hash} {f g : String} {v : RVal} :
    g ∈ (hashSet h f v).map Prod.fst ↔ g ∈ h.map Prod.fst ∨ g = f := by
  induction h with
  | nil => simp [hashSet]
  | cons q rest ih =>
    obtain ⟨f', v'⟩ := q
    by_cases hf : f' = f
    · subst hf
      by_cases hg : g = f' <;> simp [hashSet, hg] <;> tauto
    · simp [hashSet, hf, ih]; tauto

theorem nodup_fields_hashSet {h : Hash} (f : String) (v : RVal)
    (hnd : (h.map Prod.fst).Nodup) : ((hashSet h f v).map Prod.fst).Nodup := by
  induction h with
  | nil => simp [hashSet]
  | cons q rest ih =>
    obtain ⟨f', v'⟩ := q
    simp only [List.map_cons, List.nodup_cons] at hnd
    by_cases hf : f' = f
    · subst hf
      simpa [hashSet, List.nodup_cons] using hnd
    · simp only [hashSet, hf, if_false, List.map_cons, List.nodup_cons]
      refine ⟨fun hmem => ?_, ih hnd.2⟩
      rcases mem_fields_hashSet.1 hmem with h1 | h1
      · exact hnd.1 h1
      · exact hf h1

theorem hashGet_filter_self (h : Hash) (f : String) :
    hashGet (h.filter (fun p => p.1 != f)) f = none := by
  induction h with
  | nil => simp [hashGet]
  | cons q rest ih =>
    obtain ⟨f', v'⟩ := q
    by_cases hf : f' = f
    · simpa [List.filter_cons, hf, bne_self_eq_false] using ih
    · simpa [List.filter_cons, bne_iff_ne, hf, hashGet] using ih

theorem hashGet_filter_ne (h : Hash) {f g : String} (hne : g ≠ f) :
    hashGet (h.filter (fun p => p.1 != f)) g = hashGet h g := by
  induction h with
  | nil => simp
  | cons q rest ih =>
    obtain ⟨f', v'⟩ := q
    by_cases hf : f' = f
    · subst hf
      have hfg : f' ≠ g := Ne.symm hne
      simp [List.filter_cons, bne_self_eq_false, hashGet, hfg, ih]
    · by_cases hg : f' = g
      · simp [List.filter_cons, bne_iff_ne, hf, hashGet, hg, hne]
      · simp [List.filter_cons, bne_iff_ne, hf, hashGet, hg, ih]

theorem nodup_fields_filter {h : Hash} (q : String × RVal → Bool)
    (hnd : (h.map Prod.fst).Nodup) : ((h.filter q).map Prod.fst).Nodup :=
  hnd.sublist ((h.filter_sublist).map Prod.fst)

theorem mem_of_mem_filter' {h : Hash} {q : String × RVal → Bool} {p : String × RVal}
    (hp : p ∈ h.filter q) : p ∈ h :=
  List.mem_of_mem_filter hp

theorem hashGet_mem {h : Hash} {f : String} {v : RVal} (hv : hashGet h f = some v) :
    (f, v) ∈ h := by
  induction h with
  | nil => simp [hashGet] at hv
  | cons q rest ih =>
    obtain ⟨f', v'⟩ := q
    by_cases hf : f' = f
    · subst hf
      have hv' : v' = v := by simpa [hashGet] using hv
      subst hv'
      exact List.mem_cons_self _ _
    · exact List.mem_cons_of_mem _ (ih (by simpa [hashGet, hf] using hv))

theorem hashGet_eq_some_of_mem {h : Hash} {f : String} {v : RVal}
    (hnd : (h.map Prod.fst).Nodup) (hmem : (f, v) ∈ h) : hashGet h f = some v := by
  induction h with
  | nil => simp at hmem
  | cons q rest ih =>
    obtain ⟨f', v'⟩ := q
    simp only [List.map_cons, List.nodup_cons] at hnd
    rcases List.mem_cons.1 hmem with h1 | h1
    · injection h1 with h1a h1b
      simp [hashGet, h1a.symm, h1b]
    · have hne : f' ≠ f := by
        intro he
        exact hnd.1 (he ▸ (List.mem_map.2 ⟨(f, v), h1, rfl⟩))
      simp [hashGet, hne, ih hnd.2 h1]

/-! ### Keyspace-level lemmas -/

theorem storeGetHash_eq_nil_of_not_mem {s : Store} {k : String}
    (hk : k ∉ s.map Prod.fst) : storeGetHash s k = [] := by
  induction s with
  | nil => rfl
  | cons e rest ih =>
    obtain ⟨k', h⟩ := e
    simp only [List.map_cons, List.mem_cons, not_or] at hk
    have hne : k' ≠ k := fun he => hk.1 he.symm
    simp [storeGetHash, hne, ih hk.2]

theorem mem_of_storeGetHash_ne_nil {s : Store} {k : String}
    (hne : storeGetHash s k ≠ []) : (k, storeGetHash s k) ∈ s := by
  induction s with
  | nil => simp [storeGetHash] at hne
  | cons e rest ih =>
    obtain ⟨k', h⟩ := e
    by_cases hk : k' = k
    · subst hk
      simp [storeGetHash]
    · simp only [storeGetHash, if_neg hk] at hne ⊢
      exact List.mem_cons_of_mem _ (ih hne)

theorem storeGetHash_of_mem {s : Store} {k : String} {h : Hash}
    (hnd : (s.map Prod.fst).Nodup) (hmem : (k, h) ∈ s) : storeGetHash s k = h := by
  induction s with
  | nil => simp at hmem
  | cons e rest ih =>
    obtain ⟨k', h'⟩ := e
    simp only [List.map_cons, List.nodup_cons] at hnd
    rcases List.mem_cons.1 hmem with h1 | h1
    · injection h1 with h1a h1b
      simp [storeGetHash, h1a.symm, h1b]
    · have hne : k' ≠ k := by
        intro he
        exact hnd.1 (he ▸ (List.mem_map.2 ⟨(k, h), h1, rfl⟩))
      simp [storeGetHash, hne, ih hnd.2 h1]

theorem storeGetHash_hset_self (s : Store) (k f : String) (v : RVal) :
    storeGetHash (hset s k f v) k = hashSet (storeGetHash s k) f v := by
  induction s with
  | nil => simp [hset, storeGetHash, hashSet]
  | cons e rest ih =>
    obtain ⟨k', h⟩ := e
    by_cases hk : k' = k
    · simp [hset, storeGetHash, hk]
    · simp [hset, storeGetHash, hk, ih]

theorem storeGetHash_hset_ne (s : Store) {k g : String} (f : String) (v : RVal)
    (hne : g ≠ k) : storeGetHash (hset s k f v) g = storeGetHash s g := by
  have hkg : k ≠ g := Ne.symm hne
  induction s with
  | nil => simp [hset, storeGetHash, hkg]
  | cons e rest ih =>
    obtain ⟨k', h⟩ := e
    by_cases hk : k' = k
    · subst hk
      simp [hset, storeGetHash, hkg]
    · simp only [hset, if_neg hk]
      by_cases hg : k' = g
      · simp [storeGetHash, hg]
      · simp [storeGetHash, hg, ih]

theorem storeGetHash_hdel_ne (s : Store) {k g : String} (f : String)
    (hne : g ≠ k) : storeGetHash (hdel s k f) g = storeGetHash s g := by
  have hkg : k ≠ g := Ne.symm hne
  induction s with
  | nil => simp [hdel, storeGetHash]
  | cons e rest ih =>
    obtain ⟨k', h⟩ := e
    by_cases hk : k' = k
    · subst hk
      by_cases hemp : (h.filter (fun p => p.1 != f)).isEmpty <;>
        simp [hdel, hemp, storeGetHash, hkg]
    · simp only [hdel, if_neg hk]
      by_cases hg : k' = g
      · simp [storeGetHash, hg]
      · simp [storeGetHash, hg, ih]

theorem storeGetHash_hdel_self (s : Store) (k f : String)
    (hnd : (s.map Prod.fst).Nodup) :
    storeGetHash (hdel s k f) k = (storeGetHash s k).filter (fun p => p.1 != f) := by
  induction s with
  | nil => simp [hdel, storeGetHash]
  | cons e rest ih =>
    obtain ⟨k', h⟩ := e
    simp only [List.map_cons, List.nodup_cons] at hnd
    by_cases hk : k' = k
    · subst hk
      by_cases hemp : (h.filter (fun p => p.1 != f)).isEmpty
      · rw [List.isEmpty_iff] at hemp
        simp [hdel, List.isEmpty_iff.2 hemp, storeGetHash,
          storeGetHash_eq_nil_of_not_mem hnd.1, hemp]
      · simp [hdel, hemp, storeGetHash]
    · simp [hdel, storeGetHash, hk, ih hnd.2]

theorem mem_keys_hset {s : Store} {k g : String} {f : String} {v : RVal} :
    g ∈ (hset s k f v).map Prod.fst ↔ g ∈ s.map Prod.fst ∨ g = k := by
  induction s with
  | nil => simp [hset]
  | cons e rest ih =>
    obtain ⟨k', h⟩ := e
    by_cases hk : k' = k
    · subst hk
      by_cases hg : g = k' <;> simp [hset, hg] <;> tauto
    · simp [hset, hk, ih]; tauto

theorem nodup_keys_hset {s : Store} (k f : String) (v : RVal)
    (hnd : (s.map Prod.fst).Nodup) : ((hset s k f v).map Prod.fst).Nodup := by
  induction s with
  | nil => simp [hset]
  | cons e rest ih =>
    obtain ⟨k', h⟩ := e
    simp only [List.map_cons, List.nodup_cons] at hnd
    by_cases hk : k' = k
    · subst hk
      simpa [hset, List.nodup_cons] using hnd
    · simp only [hset, hk, if_false, List.map_cons, List.nodup_cons]
      refine ⟨fun hmem => ?_, ih hnd.2⟩
      rcases mem_keys_hset.1 hmem with h1 | h1
      · exact hnd.1 h1
      · exact hk h1

theorem keys_hdel_sublist (s : Store) (k f : String) :
    List.Sublist ((hdel s k f).map Prod.fst) (s.map Prod.fst) := by
  induction s with
  | nil => simp [hdel]
  | cons e rest ih =>
    obtain ⟨k', h⟩ := e
    by_cases hk : k' = k
    · subst hk
      by_cases hemp : (h.filter (fun p => p.1 != f)).isEmpty
      · simp only [hdel, hemp, if_pos rfl, if_true]
        exact (List.sublist_cons_self _ _)
      · simp [hdel, hemp]
    · simp only [hdel, if_neg hk, List.map_cons]
      exact ih.cons₂ _

theorem nodup_keys_hdel {s : Store} (k f : String)
    (hnd : (s.map Prod.fst).Nodup) : ((hdel s k f).map Prod.fst).Nodup :=
  hnd.sublist (keys_hdel_sublist s k f)

theorem mem_hset' {s : Store} {k f : String} {v : RVal} {e : String × Hash}
    (hnd : (s.map Prod.fst).Nodup) (he : e ∈ hset s k f v) :
    (e ∈ s ∧ e.1 ≠ k) ∨
      ∃ h₀, e = (k, hashSet h₀ f v) ∧ ((k, h₀) ∈ s ∨ h₀ = []) := by
  induction s with
  | nil =>
    right
    exact ⟨[], by simpa [hset] using he, Or.inr rfl⟩
  | cons q rest ih =>
    obtain ⟨k', h⟩ := q
    simp only [List.map_cons, List.nodup_cons] at hnd
    by_cases hk : k' = k
    · subst hk
      rcases (by simpa [hset] using he : e = (k', hashSet h f v) ∨ e ∈ rest) with h1 | h1
      · exact Or.inr ⟨h, h1, Or.inl (List.mem_cons_self _ _)⟩
      · refine Or.inl ⟨List.mem_cons_of_mem _ h1, fun hek => ?_⟩
        exact hnd.1 (hek ▸ List.mem_map.2 ⟨e, h1, rfl⟩)
    · rcases (by simpa [hset, hk] using he : e = (k', h) ∨ e ∈ hset rest k f v) with h1 | h1
      · exact Or.inl ⟨by simp [h1], by simp [h1, hk]⟩
      · rcases ih hnd.2 h1 with ⟨h2, h3⟩ | ⟨h₀, h2, h3⟩
        · exact Or.inl ⟨List.mem_cons_of_mem _ h2, h3⟩
        · rcases h3 with h3 | h3
          · exact Or.inr ⟨h₀, h2, Or.inl (List.mem_cons_of_mem _ h3)⟩
          · exact Or.inr ⟨h₀, h2, Or.inr h3⟩

theorem mem_hdel' {s : Store} {k f : String} {e : String × Hash}
    (hnd : (s.map Prod.fst).Nodup) (he : e ∈ hdel s k f) :
    (e ∈ s ∧ e.1 ≠ k) ∨
      ∃ h₀, (k, h₀) ∈ s ∧ e = (k, h₀.filter (fun p => p.1 != f)) := by
  induction s with
  | nil => simp [hdel] at he
  | cons q rest ih =>
    obtain ⟨k', h⟩ := q
    simp only [List.map_cons, List.nodup_cons] at hnd
    by_cases hk : k' = k
    · subst hk
      have hmemne : ∀ e' ∈ rest, (e' : String × Hash).1 ≠ k' := by
        intro e' he' hek
        exact hnd.1 (hek ▸ List.mem_map.2 ⟨e', he', rfl⟩)
      by_cases hemp : (h.filter (fun p => p.1 != f)).isEmpty
      · have h1 : e ∈ rest := by simpa [hdel, hemp] using he
        exact Or.inl ⟨List.mem_cons_of_mem _ h1, hmemne e h1⟩
      · rcases (by simpa [hdel, hemp] using he :
            e = (k', h.filter (fun p => p.1 != f)) ∨ e ∈ rest) with h1 | h1
        · exact Or.inr ⟨h, List.mem_cons_self _ _, h1⟩
        · exact Or.inl ⟨List.mem_cons_of_mem _ h1, hmemne e h1⟩
    · rcases (by simpa [hdel, hk] using he : e = (k', h) ∨ e ∈ hdel rest k f) with h1 | h1
      · exact Or.inl ⟨by simp [h1], by simp [h1, hk]⟩
      · rcases ih hnd.2 h1 with ⟨h2, h3⟩ | ⟨h₀, h2, h3⟩
        · exact Or.inl ⟨List.mem_cons_of_mem _ h2, h3⟩
        · exact Or.inr ⟨h₀, List.mem_cons_of_mem _ h2, h3⟩

theorem mem_keysMatching {s : Store} {pat k : String} :
    k ∈ keysMatching s pat ↔ k ∈ s.map Prod.fst ∧ globMatch pat.data k.data = true := by
  simp [keysMatching, List.mem_filter]

theorem nodup_keysMatching {s : Store} (pat : String)
    (hnd : (s.map Prod.fst).Nodup) : (keysMatching s pat).Nodup :=
  hnd.filter _

/-! ### Glob-matching lemmas -/

theorem metaFree_of_globFree {s : String} (h : GlobFree s) : metaFree s.data := by
  intro c hc
  exact ⟨fun he => h.1 (he ▸ hc), fun he => h.2.1 (he ▸ hc),
    fun he => h.2.2.1 (he ▸ hc), fun he => h.2.2.2 (he ▸ hc)⟩

theorem metaFree_append {a b : List Char} (ha : metaFree a) (hb : metaFree b) :
    metaFree (a ++ b) := by
  intro c hc
  rcases List.mem_append.1 hc with h | h
  · exact ha c h
  · exact hb c h

theorem classScan_length (c : Char) : ∀ (ps : List Char) (m : Bool),
    (classScan c ps m).2.length ≤ ps.length := by
  intro ps m
  induction ps, m using classScan.induct c
  all_goals rw [classScan.eq_def]
  all_goals simp_all
  all_goals omega

theorem length_dropWhile_star_le (l : List Char) :
    (l.dropWhile (fun x => x == '*')).length ≤ l.length := by
  induction l with
  | nil => exact Nat.le_refl _
  | cons a t ih =>
    cases h : (a == '*') with
    | true =>
      simp only [List.dropWhile, h]
      exact Nat.le_trans ih (by simp)
    | false =>
      simp only [List.dropWhile, h]
      exact Nat.le_refl _

theorem globStep_length (p : Char) (ps : List Char) (c : Char) :
    (globStep p ps c).2.length ≤ ps.length := by
  by_cases h1 : p = '?'
  · simp [globStep, h1]
  · by_cases h2 : p = '['
    · cases ps with
      | nil => simp [globStep, h1, h2]
      | cons q ps' =>
        by_cases h3 : q = '^'
        · have hstep : globStep p (q :: ps') c
              = (!(classScan c ps' false).1, (classScan c ps' false).2) := by
            simp [globStep, h1, h2, h3]
          rw [hstep]
          have hc := classScan_length c ps' false
          simp only [List.length_cons]
          omega
        · have hstep : globStep p (q :: ps') c
              = ((classScan c (q :: ps') false).1, (classScan c (q :: ps') false).2) := by
            simp [globStep, h1, h2, h3]
          rw [hstep]
          exact classScan_length c (q :: ps') false
    · by_cases h4 : p = '\\'
      · cases ps with
        | nil => simp [globStep, h1, h2, h4]
        | cons d ps' => simp [globStep, h1, h2, h4]
      · simp [globStep, h1, h2, h4]

theorem globFuel_congr : ∀ (f₁ f₂ : Nat) (p s : List Char),
    p.length < f₁ → p.length < f₂ → globFuel f₁ p s = globFuel f₂ p s := by
  intro f₁
  induction f₁ with
  | zero => intro f₂ p s h1 _; exact absurd h1 (Nat.not_lt_zero _)
  | succ g ih =>
    intro f₂ p s h1 h2
    cases f₂ with
    | zero => exact absurd h2 (Nat.not_lt_zero _)
    | succ g₂ =>
      cases p with
      | nil => rfl
      | cons p ps =>
        cases s with
        | nil => rfl
        | cons c s0 =>
          have hps1 : ps.length < g := by simpa using Nat.lt_of_succ_lt_succ h1
          have hps2 : ps.length < g₂ := by simpa using Nat.lt_of_succ_lt_succ h2
          show (if p = '*' then _ else _) = (if p = '*' then _ else _)
          by_cases hstar : p = '*'
          · rw [if_pos hstar, if_pos hstar]
            have hdw : (ps.dropWhile (fun x => x == '*')).length ≤ ps.length :=
              length_dropWhile_star_le _
            have hfun : (fun t => globFuel g (ps.dropWhile (fun x => x == '*')) t)
                = (fun t => globFuel g₂ (ps.dropWhile (fun x => x == '*')) t) :=
              funext (fun t => ih g₂ _ t (by omega) (by omega))
            rw [hfun]
          · rw [if_neg hstar, if_neg hstar]
            cases s0 with
            | nil => rfl
            | cons e s1 =>
              have hst : (globStep p ps c).2.length ≤ ps.length := globStep_length p ps c
              rw [show globFuel g (globStep p ps c).2 (e :: s1)
                  = globFuel g₂ (globStep p ps c).2 (e :: s1) from
                ih g₂ _ _ (by omega) (by omega)]

theorem globMatch_eq_fuel {f : Nat} (p s : List Char) (h : p.length < f) :
    globMatch p s = globFuel f p s :=
  globFuel_congr _ _ _ _ (Nat.lt_succ_self _) h

theorem globMatch_nil_left (s : List Char) : globMatch [] s = s.isEmpty := rfl

theorem globMatch_nil_right (p : Char) (ps : List Char) : globMatch (p :: ps) [] = false :=
  rfl

theorem globMatch_star (ps : List Char) (c : Char) (s : List Char) :
    globMatch ('*' :: ps) (c :: s)
      = ((ps.dropWhile (fun x => x == '*')).isEmpty ||
          (c :: s).tails.any (fun t => globMatch (ps.dropWhile (fun x => x == '*')) t)) := by
  have hdw : (ps.dropWhile (fun x => x == '*')).length ≤ ps.length :=
    length_dropWhile_star_le _
  have h0 : globMatch ('*' :: ps) (c :: s)
      = ((ps.dropWhile (fun x => x == '*')).isEmpty ||
          (c :: s).tails.any (fun t =>
            globFuel (ps.length + 1) (ps.dropWhile (fun x => x == '*')) t)) := rfl
  rw [h0]
  have hfun : (fun t => globFuel (ps.length + 1) (ps.dropWhile (fun x => x == '*')) t)
      = (fun t => globMatch (ps.dropWhile (fun x => x == '*')) t) :=
    funext (fun t => (globMatch_eq_fuel _ t (by omega)).symm)
  rw [hfun]

theorem globMatch_consume {p : Char} (hp : p ≠ '*') (ps : List Char) (c : Char)
    (s : List Char) :
    globMatch (p :: ps) (c :: s)
      = ((globStep p ps c).1 &&
          (if s.isEmpty then (globStep p ps c).2.all (fun x => x == '*')
           else globMatch (globStep p ps c).2 s)) := by
  have h0 : globMatch (p :: ps) (c :: s)
      = (if p = '*' then
          (ps.dropWhile (fun x => x == '*')).isEmpty ||
            (c :: s).tails.any (fun t =>
              globFuel (ps.length + 1) (ps.dropWhile (fun x => x == '*')) t)
        else
          (globStep p ps c).1 &&
            (if s.isEmpty then (globStep p ps c).2.all (fun x => x == '*')
             else globFuel (ps.length + 1) (globStep p ps c).2 s)) := rfl
  rw [h0, if_neg hp]
  cases s with
  | nil => rfl
  | cons e s' =>
    have hst : (globStep p ps c).2.length ≤ ps.length := globStep_length p ps c
    rw [show globFuel (ps.length + 1) (globStep p ps c).2 (e :: s')
        = globMatch (globStep p ps c).2 (e :: s') from
      (globMatch_eq_fuel _ _ (by omega)).symm]

theorem globStep_lit {p : Char} (h2 : p ≠ '?') (h3 : p ≠ '[') (h4 : p ≠ '\\')
    (ps : List Char) (c : Char) : globStep p ps c = ((p == c), ps) := by
  simp [globStep, h2, h3, h4]

theorem metaFree_all_star {ps : List Char} (h : metaFree ps) :
    ps.all (fun x => x == '*') = ps.isEmpty := by
  cases ps with
  | nil => rfl
  | cons a l =>
    have ha : (a == '*') = false := beq_eq_false_iff_ne.2 (h a (List.mem_cons_self a l)).1
    simp [ha]

theorem globMatch_litfree : ∀ {p : List Char}, metaFree p → ∀ s : List Char,
    (globMatch p s = true ↔ p = s) := by
  intro p
  induction p with
  | nil =>
    intro _ s
    cases s with
    | nil => simp [globMatch_nil_left]
    | cons c s' => simp [globMatch_nil_left]
  | cons a ps ih =>
    intro hmf s
    obtain ⟨ha1, ha2, ha3, ha4⟩ := hmf a (List.mem_cons_self _ _)
    have hps : metaFree ps := fun d hd => hmf d (List.mem_cons_of_mem _ hd)
    cases s with
    | nil => simp [globMatch_nil_right]
    | cons c s' =>
      rw [globMatch_consume ha1, globStep_lit ha2 ha3 ha4]
      cases s' with
      | nil =>
        simp only [List.isEmpty_nil, if_true, metaFree_all_star hps]
        simp [Bool.and_eq_true, List.isEmpty_iff]
      | cons e s'' =>
        simp only [List.isEmpty_cons, Bool.false_eq_true, if_false]
        simp [Bool.and_eq_true, ih hps (e :: s'')]

theorem globMatch_star_any (c : Char) (s : List Char) :
    globMatch ['*'] (c :: s) = true := by
  rw [globMatch_star]
  rfl

theorem globMatch_trailing_star_aux : ∀ {lit : List Char}, metaFree lit →
    ∀ (c : Char) (s : List Char),
    (globMatch (lit ++ ['*']) (c :: s) = true ↔ strStarts lit (c :: s) = true) := by
  intro lit
  induction lit with
  | nil =>
    intro _ c s
    simp [globMatch_star_any, strStarts]
  | cons a ps ih =>
    intro hmf c s
    obtain ⟨ha1, ha2, ha3, ha4⟩ := hmf a (List.mem_cons_self _ _)
    have hps : metaFree ps := fun d hd => hmf d (List.mem_cons_of_mem _ hd)
    rw [List.cons_append, globMatch_consume ha1, globStep_lit ha2 ha3 ha4]
    cases s with
    | nil =>
      simp only [List.isEmpty_nil, if_true, List.all_append, metaFree_all_star hps]
      cases ps with
      | nil => simp [strStarts]
      | cons b ps' => simp [strStarts]
    | cons e s' =>
      simp only [List.isEmpty_cons, Bool.false_eq_true, if_false]
      simp only [strStarts, Bool.and_eq_true]
      rw [ih hps e s']
      simp

theorem globMatch_trailing_star {lit : List Char} (hmf : metaFree lit) (hne : lit ≠ []) :
    ∀ s : List Char, (globMatch (lit ++ ['*']) s = true ↔ strStarts lit s = true) := by
  intro s
  cases s with
  | nil =>
    cases lit with
    | nil => exact absurd rfl hne
    | cons a ps =>
      rw [List.cons_append]
      simp [globMatch_nil_right, strStarts]
  | cons c s' => exact globMatch_trailing_star_aux hmf c s'

theorem listBase_data_ne_nil (u ct : String) : (listBase u ct).data ≠ [] := by
  simp [listBase_data]

/-! ### Decimal printing and parsing round-trip -/

theorem digitsRev_spec : ∀ fuel n, n ≤ fuel → ofDigs (digitsRev fuel n) = n := by
  intro fuel
  induction fuel with
  | zero =>
    intro n hn
    interval_cases n
    simp [digitsRev, ofDigs]
  | succ f ih =>
    intro n hn
    match n with
    | 0 => simp [digitsRev, ofDigs]
    | m + 1 =>
      have hdiv : (m + 1) / 10 ≤ f := by
        have := Nat.div_lt_self (Nat.succ_pos m) (by norm_num : 1 < 10)
        omega
      simp only [digitsRev, ofDigs, ih _ hdiv]
      omega

theorem digitsRev_lt : ∀ fuel n d, d ∈ digitsRev fuel n → d < 10 := by
  intro fuel
  induction fuel with
  | zero =>
    intro n d hd
    match n with
    | 0 => simp [digitsRev] at hd
    | m + 1 => simp [digitsRev] at hd
  | succ f ih =>
    intro n d hd
    match n with
    | 0 => simp [digitsRev] at hd
    | m + 1 =>
      rcases List.mem_cons.1 (by simpa [digitsRev] using hd) with h | h
      · omega
      · exact ih _ _ h

theorem digitsRev_pos_cons (fuel m : Nat) :
    digitsRev (fuel + 1) (m + 1) = (m + 1) % 10 :: digitsRev fuel ((m + 1) / 10) := rfl

theorem parseNatAux_append (l₁ l₂ : List Char) : ∀ acc,
    parseNatAux acc (l₁ ++ l₂) =
      match parseNatAux acc l₁ with
      | some a => parseNatAux a l₂
      | none => none := by
  induction l₁ with
  | nil => intro acc; simp [parseNatAux]
  | cons c cs ih =>
    intro acc
    cases hd : digitOfChar? c with
    | none => simp [parseNatAux, hd]
    | some d => simp [parseNatAux, hd, ih]

theorem digitOfChar_digitChar {d : Nat} (hd : d < 10) :
    digitOfChar? (Nat.digitChar d) = some d := by
  interval_cases d <;> decide

theorem digitChar_not_sign {d : Nat} (hd : d < 10) :
    Nat.digitChar d ≠ '-' ∧ Nat.digitChar d ≠ '+' := by
  interval_cases d <;> decide

theorem parse_rev_digits : ∀ ds : List Nat, (∀ d ∈ ds, d < 10) → ∀ acc,
    parseNatAux acc ((ds.map Nat.digitChar).reverse) =
      some (acc * 10 ^ ds.length + ofDigs ds) := by
  intro ds
  induction ds with
  | nil => intro _ acc; simp [parseNatAux, ofDigs]
  | cons d tl ih =>
    intro hds acc
    have hd : d < 10 := hds d (List.mem_cons_self _ _)
    have htl : ∀ x ∈ tl, x < 10 := fun x hx => hds x (List.mem_cons_of_mem _ hx)
    rw [List.map_cons, List.reverse_cons, parseNatAux_append, ih htl acc]
    simp only [parseNatAux, digitOfChar_digitChar hd, ofDigs, List.length_cons]
    congr 1
    ring

theorem natDigitsStr_parse {n : Nat} (hn : 0 < n) : parseNat? (natDigitsStr n) = some n := by
  match n, hn with
  | m + 1, _ =>
    have hlt : ∀ d ∈ digitsRev (m + 1) (m + 1), d < 10 := fun d hd => digitsRev_lt _ _ _ hd
    have hmain := parse_rev_digits (digitsRev (m + 1) (m + 1)) hlt 0
    rw [digitsRev_spec (m + 1) (m + 1) le_rfl] at hmain
    simp only [Nat.zero_mul, Nat.zero_add] at hmain
    unfold natDigitsStr
    cases hl : ((digitsRev (m + 1) (m + 1)).map Nat.digitChar).reverse with
    | nil =>
      rw [digitsRev_pos_cons] at hl
      simp at hl
    | cons c cs =>
      rw [hl] at hmain
      simpa [parseNat?] using hmain

theorem natDigitsStr_head_digit {n : Nat} {c : Char} {cs : List Char}
    (h : natDigitsStr n = c :: cs) : ∃ d, d < 10 ∧ c = Nat.digitChar d := by
  have hc : c ∈ natDigitsStr n := by simp [h]
  unfold natDigitsStr at hc
  rw [List.mem_reverse] at hc
  obtain ⟨d, hd, rfl⟩ := List.mem_map.1 hc
  exact ⟨d, digitsRev_lt _ _ _ hd, rfl⟩

theorem atoi_intToString (m : Int) : atoi? (intToString m) = some m := by
  rcases lt_trichotomy m 0 with hm | hm | hm
  · have habs : 0 < m.natAbs := by omega
    have hparse := natDigitsStr_parse habs
    have hits : intToString m = String.mk ('-' :: natDigitsStr m.natAbs) := by
      unfold intToString
      rw [if_pos hm]
    rw [hits]
    have hdata : (String.mk ('-' :: natDigitsStr m.natAbs)).data
        = '-' :: natDigitsStr m.natAbs := rfl
    have habs2 : ((m.natAbs : Int)) = -m := by omega
    simp [atoi?, hdata, hparse, habs2]
  · subst hm
    decide
  · have hpos : 0 < m.toNat := by omega
    have hparse := natDigitsStr_parse hpos
    have hits : intToString m = String.mk (natDigitsStr m.toNat) := by
      unfold intToString
      rw [if_neg (by omega : ¬ m < 0), if_neg (by omega : ¬ m = 0)]
    rw [hits]
    cases hl : natDigitsStr m.toNat with
    | nil => rw [hl] at hparse; simp [parseNat?] at hparse
    | cons c cs =>
      obtain ⟨d, hd, rfl⟩ := natDigitsStr_head_digit hl
      rw [hl] at hparse
      have hsign := digitChar_not_sign hd
      have hdata : (String.mk (natDigitsStr m.toNat)).data = natDigitsStr m.toNat := rfl
      have htn : ((m.toNat : Int)) = m := by omega
      simp [atoi?, hdata, hl, hsign.1, hsign.2, hparse, htn]

theorem atoi_of_goAtoi {s : String} {v : Int} (h : goAtoi? s = some v) :
    atoi? s = some v := by
  unfold goAtoi? at h
  cases ha : atoi? s with
  | none =>
    simp only [ha] at h
    exact h
  | some w =>
    simp only [ha] at h
    by_cases hr : -9223372036854775808 ≤ w ∧ w ≤ 9223372036854775807
    · rw [if_pos hr] at h
      injection h with h
      rw [h]
    · rw [if_neg hr] at h
      exact Option.noConfusion h

theorem goAtoiRVal_intToString {m : Int} (h1 : -9223372036854775808 ≤ m)
    (h2 : m ≤ 9223372036854775807) :
    goAtoiRVal (RVal.str (intToString m)) = some m := by
  simp [goAtoiRVal, goAtoi?, atoi_intToString, h1, h2]

theorem goAtoiRVal_intToString_big {m : Int} (h2 : 9223372036854775807 < m) :
    goAtoiRVal (RVal.str (intToString m)) = none := by
  simp only [goAtoiRVal, goAtoi?, atoi_intToString]
  rw [if_neg (by omega : ¬ (-9223372036854775808 ≤ m ∧ m ≤ 9223372036854775807))]

theorem atoiRVal_of_goAtoiRVal {v : RVal} {m : Int} (h : goAtoiRVal v = some m) :
    atoiRVal v = some m := by
  cases v with
  | str s => exact atoi_of_goAtoi h
  | cookie c => exact Option.noConfusion h

/-! ### Shuffle permutation lemmas -/

theorem perm_cons_set {α : Type} : ∀ (xs : List α) (m : Nat) (b c : α),
    xs[m]? = some b → List.Perm (b :: xs.set m c) (c :: xs) := by
  intro xs
  induction xs with
  | nil => intro m b c hb; simp at hb
  | cons y ys ih =>
    intro m b c hb
    match m with
    | 0 =>
      have hb' : y = b := by simpa using hb
      subst hb'
      exact List.Perm.swap c y ys
    | k + 1 =>
      have hb' : ys[k]? = some b := by simpa using hb
      have g1 : List.Perm (b :: y :: ys.set k c) (y :: b :: ys.set k c) :=
        List.Perm.swap y b _
      have g2 : List.Perm (y :: b :: ys.set k c) (y :: c :: ys) :=
        List.Perm.cons y (ih k b c hb')
      have g3 : List.Perm (y :: c :: ys) (c :: y :: ys) := List.Perm.swap c y _
      exact (g1.trans g2).trans g3

theorem perm_set_set {α : Type} : ∀ (l : List α) (i j : Nat) (a b : α),
    l[i]? = some a → l[j]? = some b → List.Perm ((l.set i b).set j a) l := by
  intro l
  induction l with
  | nil => intro i j a b hi _; simp at hi
  | cons x xs ih =>
    intro i j a b hi hj
    match i, j with
    | 0, 0 =>
      have ha : x = a := by simpa using hi
      subst ha
      exact List.Perm.refl _
    | 0, k + 1 =>
      have ha : x = a := by simpa using hi
      have hb : xs[k]? = some b := by simpa using hj
      subst ha
      exact perm_cons_set xs k b x hb
    | m + 1, 0 =>
      have hb : x = b := by simpa using hj
      have ha : xs[m]? = some a := by simpa using hi
      subst hb
      exact perm_cons_set xs m a x ha
    | m + 1, k + 1 =>
      have ha : xs[m]? = some a := by simpa using hi
      have hb : xs[k]? = some b := by simpa using hj
      exact List.Perm.cons x (ih m k a b ha hb)

theorem swapList_perm {α : Type} (l : List α) (i j : Nat) :
    List.Perm (swapList l i j) l := by
  unfold swapList
  cases hi : l[i]? with
  | none => cases l[j]? <;> exact List.Perm.refl _
  | some a =>
    cases hj : l[j]? with
    | none => exact List.Perm.refl _
    | some b => exact perm_set_set l i j a b hi hj

theorem shuffleAux_perm {α : Type} (rnd : Nat → Nat) :
    ∀ (n : Nat) (l : List α), List.Perm (shuffleAux rnd l n) l := by
  intro n
  induction n with
  | zero => intro l; exact List.Perm.refl _
  | succ i ih =>
    intro l
    exact (ih _).trans (swapList_perm l (i + 1) (rnd (i + 1) % (i + 2)))

theorem shuffleGo_perm {α : Type} (rnd : Nat → Nat) (l : List α) :
    List.Perm (shuffleGo rnd l) l :=
  shuffleAux_perm rnd _ l

/-! ### Collection lemmas -/

theorem mem_collectCookies {store : Store} {rec : CookieData} : ∀ {ks : List String},
    rec ∈ collectCookies store ks ↔
      ∃ k ∈ ks, ∃ p ∈ hgetall store k, jsonUnmarshalCookie p.2 = some rec := by
  intro ks
  induction ks with
  | nil => simp [collectCookies]
  | cons k rest ih =>
    simp only [collectCookies, List.mem_append, List.mem_filterMap, ih, List.mem_cons]
    constructor
    · rintro (⟨p, hp, hup⟩ | ⟨k', hk', p, hp, hup⟩)
      · exact ⟨k, Or.inl rfl, p, hp, hup⟩
      · exact ⟨k', Or.inr hk', p, hp, hup⟩
    · rintro ⟨k', (rfl | hk'), p, hp, hup⟩
      · exact Or.inl ⟨p, hp, hup⟩
      · exact Or.inr ⟨k', hk', p, hp, hup⟩

theorem hash_filterMap_filter_nil {q : CookieData → Bool} : ∀ {h : Hash},
    (∀ p ∈ h, ∀ c, jsonUnmarshalCookie p.2 = some c → q c = false) →
    (h.filterMap (fun p => jsonUnmarshalCookie p.2)).filter q = [] := by
  intro h
  induction h with
  | nil => intro _; simp
  | cons p rest ih =>
    intro hall
    cases hu : jsonUnmarshalCookie p.2 with
    | none => simpa [List.filterMap_cons, hu] using ih (fun p' hp' => hall p' (List.mem_cons_of_mem _ hp'))
    | some c =>
      have hqc : q c = false := hall p (List.mem_cons_self _ _) c hu
      simpa [List.filterMap_cons, hu, List.filter_cons, hqc]
        using ih (fun p' hp' => hall p' (List.mem_cons_of_mem _ hp'))

theorem hash_filterMap_filter_single {q : CookieData → Bool} {d : CookieData} {v : String} :
    ∀ {h : Hash}, (h.map Prod.fst).Nodup →
    hashGet h v = some (RVal.cookie d) →
    q d = true →
    (∀ p ∈ h, p.1 ≠ v → ∀ c, jsonUnmarshalCookie p.2 = some c → q c = false) →
    (h.filterMap (fun p => jsonUnmarshalCookie p.2)).filter q = [d] := by
  intro h
  induction h with
  | nil => intro _ hg; simp [hashGet] at hg
  | cons p rest ih =>
    intro hnd hg hq hothers
    obtain ⟨f, val⟩ := p
    simp only [List.map_cons, List.nodup_cons] at hnd
    by_cases hf : f = v
    · subst hf
      have hval : val = RVal.cookie d := by
        simpa [hashGet] using hg
      subst hval
      have hrest : ∀ p' ∈ rest, ∀ c, jsonUnmarshalCookie p'.2 = some c → q c = false := by
        intro p' hp' c hc
        have hne : p'.1 ≠ f := by
          intro he
          exact hnd.1 (he ▸ List.mem_map.2 ⟨p', hp', rfl⟩)
        exact hothers p' (List.mem_cons_of_mem _ hp') hne c hc
      have hstep : (((f, RVal.cookie d) :: rest).filterMap (fun p => jsonUnmarshalCookie p.2))
          = d :: rest.filterMap (fun p => jsonUnmarshalCookie p.2) := by
        simp [List.filterMap_cons, jsonUnmarshalCookie]
      rw [hstep, List.filter_cons]
      simp only [hq, if_true]
      rw [hash_filterMap_filter_nil hrest]
    · have hg' : hashGet rest v = some (RVal.cookie d) := by
        simpa [hashGet, hf] using hg
      have hothers' : ∀ p' ∈ rest, p'.1 ≠ v → ∀ c, jsonUnmarshalCookie p'.2 = some c →
          q c = false :=
        fun p' hp' => hothers p' (List.mem_cons_of_mem _ hp')
      have hrec := ih hnd.2 hg' hq hothers'
      cases hu : jsonUnmarshalCookie val with
      | none => simpa [List.filterMap_cons, hu] using hrec
      | some c =>
        have hqc : q c = false := hothers (f, val) (List.mem_cons_self _ _) hf c hu
        simpa [List.filterMap_cons, hu, List.filter_cons, hqc] using hrec

theorem filter_collect_nil {store : Store} {q : CookieData → Bool} : ∀ {ks : List String},
    (∀ k ∈ ks, ((hgetall store k).filterMap (fun p => jsonUnmarshalCookie p.2)).filter q = []) →
    (collectCookies store ks).filter q = [] := by
  intro ks
  induction ks with
  | nil => intro _; simp [collectCookies]
  | cons k rest ih =>
    intro hall
    simp only [collectCookies, List.filter_append]
    rw [hall k (List.mem_cons_self _ _),
      ih (fun k' hk' => hall k' (List.mem_cons_of_mem _ hk'))]
    rfl

theorem filter_collect_single {store : Store} {q : CookieData → Bool} {K : String}
    {out : List CookieData} : ∀ {ks : List String}, K ∈ ks → ks.Nodup →
    ((hgetall store K).filterMap (fun p => jsonUnmarshalCookie p.2)).filter q = out →
    (∀ k ∈ ks, k ≠ K →
      ((hgetall store k).filterMap (fun p => jsonUnmarshalCookie p.2)).filter q = []) →
    (collectCookies store ks).filter q = out := by
  intro ks
  induction ks with
  | nil => intro hK; simp at hK
  | cons k rest ih =>
    intro hK hnd hKval hothers
    rw [List.nodup_cons] at hnd
    rcases List.mem_cons.1 hK with heq | hK'
    · subst heq
      have hrestnil : (collectCookies store rest).filter q = [] := by
        apply filter_collect_nil
        intro k' hk'
        have hne : k' ≠ K := fun he => hnd.1 (he ▸ hk')
        exact hothers k' (List.mem_cons_of_mem _ hk') hne
      simp only [collectCookies, List.filter_append]
      rw [hKval, hrestnil, List.append_nil]
    · have hknil : ((hgetall store k).filterMap (fun p => jsonUnmarshalCookie p.2)).filter q
          = [] := by
        have hne : k ≠ K := fun he => hnd.1 (he ▸ hK')
        exact hothers k (List.mem_cons_self _ _) hne
      simp only [collectCookies, List.filter_append]
      rw [hknil, List.nil_append]
      exact ih hK' hnd.2 hKval (fun k' hk' => hothers k' (List.mem_cons_of_mem _ hk'))

/-! ### Removal-loop lemmas -/

theorem findAndRemove_of_find_none {store : Store} {cookie : String} : ∀ {ks : List String},
    ks.find? (fun k => hexists store k cookie) = none →
    findAndRemove store cookie ks = (store, "") := by
  intro ks
  induction ks with
  | nil => intro _; rfl
  | cons k rest ih =>
    intro hfind
    rw [List.find?_cons] at hfind
    cases hd : hexists store k cookie with
    | true => rw [hd] at hfind; simp at hfind
    | false =>
      rw [hd] at hfind
      rw [findAndRemove, if_neg (by simp [hd])]
      exact ih hfind

theorem findAndRemove_of_find_some {store : Store} {cookie k : String} : ∀ {ks : List String},
    ks.find? (fun k => hexists store k cookie) = some k →
    findAndRemove store cookie ks = (hdel store k cookie, extractCategory store k cookie) := by
  intro ks
  induction ks with
  | nil => intro hfind; simp at hfind
  | cons k₀ rest ih =>
    intro hfind
    rw [List.find?_cons] at hfind
    cases hd : hexists store k₀ cookie with
    | true =>
      rw [hd] at hfind
      simp only [Option.some.injEq] at hfind
      subst hfind
      rw [findAndRemove, if_pos (by simp [hd])]
    | false =>
      rw [hd] at hfind
      rw [findAndRemove, if_neg (by simp [hd])]
      exact ih hfind

/-! ### The reachable-state invariant -/

theorem inv_empty : Inv [] := ⟨⟨by simp, by simp⟩, by simp⟩

theorem hget_hset_self (s : Store) (k f : String) (v : RVal) :
    hget (hset s k f v) k f = some v := by
  rw [hget, storeGetHash_hset_self, hashGet_hashSet_self]

theorem atoiRVal_intToString (m : Int) : atoiRVal (RVal.str (intToString m)) = some m :=
  atoi_intToString m

theorem inv_hset_cookie {s : Store} {u ct cat v : String} {ts : Int}
    (hinv : Inv s) (hcat : cat ≠ "") :
    Inv (hset s (generateCookieKey u ct cat) v (RVal.cookie ⟨v, cat, ts⟩)) := by
  obtain ⟨⟨hknd, hhnd⟩, hcl⟩ := hinv
  refine ⟨⟨nodup_keys_hset _ _ _ hknd, ?_⟩, ?_⟩
  · intro e he
    rcases mem_hset' hknd he with ⟨hes, _⟩ | ⟨h₀, rfl, hh₀⟩
    · exact hhnd e hes
    · rcases hh₀ with hh₀ | rfl
      · exact nodup_fields_hashSet _ _ (hhnd _ hh₀)
      · simp [hashSet]
  · intro e he
    rcases mem_hset' hknd he with ⟨hes, _⟩ | ⟨h₀, rfl, hh₀⟩
    · exact hcl e hes
    · constructor
      · intro _ p hp
        rcases mem_hashSet hp with rfl | hp₀
        · exact ⟨⟨v, cat, ts⟩, rfl, rfl, hcat, u, ct, rfl⟩
        · rcases hh₀ with hh₀ | rfl
          · exact (hcl _ hh₀).1 (cookieKey_starts_cookies u ct cat) p hp₀
          · simp at hp₀
      · intro hst
        rw [cookieKey_not_starts_stats] at hst
        simp at hst

theorem inv_hset_stats {s : Store} {u ct cat : String} {m : Int}
    (hinv : Inv s) (hm : 0 < m) :
    Inv (hset s (generateStatsKey u ct) cat (RVal.str (intToString m))) := by
  obtain ⟨⟨hknd, hhnd⟩, hcl⟩ := hinv
  refine ⟨⟨nodup_keys_hset _ _ _ hknd, ?_⟩, ?_⟩
  · intro e he
    rcases mem_hset' hknd he with ⟨hes, _⟩ | ⟨h₀, rfl, hh₀⟩
    · exact hhnd e hes
    · rcases hh₀ with hh₀ | rfl
      · exact nodup_fields_hashSet _ _ (hhnd _ hh₀)
      · simp [hashSet]
  · intro e he
    rcases mem_hset' hknd he with ⟨hes, _⟩ | ⟨h₀, rfl, hh₀⟩
    · exact hcl e hes
    · constructor
      · intro hco
        rw [statsKey_not_starts_cookies] at hco
        simp at hco
      · intro _ p hp
        rcases mem_hashSet hp with rfl | hp₀
        · exact ⟨m, rfl, hm⟩
        · rcases hh₀ with hh₀ | rfl
          · exact (hcl _ hh₀).2 (statsKey_starts_stats u ct) p hp₀
          · simp at hp₀

theorem inv_hdel {s : Store} (hinv : Inv s) (k f : String) : Inv (hdel s k f) := by
  obtain ⟨⟨hknd, hhnd⟩, hcl⟩ := hinv
  refine ⟨⟨nodup_keys_hdel _ _ hknd, ?_⟩, ?_⟩
  · intro e he
    rcases mem_hdel' hknd he with ⟨hes, _⟩ | ⟨h₀, hh₀, rfl⟩
    · exact hhnd e hes
    · exact nodup_fields_filter _ (hhnd _ hh₀)
  · intro e he
    rcases mem_hdel' hknd he with ⟨hes, _⟩ | ⟨h₀, hh₀, rfl⟩
    · exact hcl e hes
    · exact ⟨fun hco p hp => (hcl _ hh₀).1 hco p (mem_of_mem_filter' hp),
        fun hst p hp => (hcl _ hh₀).2 hst p (mem_of_mem_filter' hp)⟩

theorem inv_hset_then_hdel {s : Store} (hinv : Inv s) (u ct cat : String) (val : RVal) :
    Inv (hdel (hset s (generateStatsKey u ct) cat val) (generateStatsKey u ct) cat) := by
  obtain ⟨⟨hknd, hhnd⟩, hcl⟩ := hinv
  have hknd1 := nodup_keys_hset (generateStatsKey u ct) cat val hknd
  refine ⟨⟨nodup_keys_hdel _ _ hknd1, ?_⟩, ?_⟩
  · intro e he
    rcases mem_hdel' hknd1 he with ⟨hes, hne⟩ | ⟨h₀, hh₀, rfl⟩
    · rcases mem_hset' hknd hes with ⟨hes', _⟩ | ⟨h₁, rfl, _⟩
      · exact hhnd e hes'
      · exact absurd rfl hne
    · rcases mem_hset' hknd hh₀ with ⟨_, hne'⟩ | ⟨h₁, heq, hh₁⟩
      · exact absurd rfl hne'
      · injection heq with _ heq2
        subst heq2
        rcases hh₁ with hh₁ | rfl
        · exact nodup_fields_filter _ (nodup_fields_hashSet _ _ (hhnd _ hh₁))
        · exact nodup_fields_filter _ (nodup_fields_hashSet _ _ (by simp))
  · intro e he
    rcases mem_hdel' hknd1 he with ⟨hes, hne⟩ | ⟨h₀, hh₀, rfl⟩
    · rcases mem_hset' hknd hes with ⟨hes', _⟩ | ⟨h₁, rfl, _⟩
      · exact hcl e hes'
      · exact absurd rfl hne
    · rcases mem_hset' hknd hh₀ with ⟨_, hne'⟩ | ⟨h₁, heq, hh₁⟩
      · exact absurd rfl hne'
      · injection heq with _ heq2
        subst heq2
        constructor
        · intro hco
          rw [statsKey_not_starts_cookies] at hco
          simp at hco
        · intro _ p hp
          obtain ⟨hpmem, hpne⟩ := List.mem_filter.1 hp
          rcases mem_hashSet hpmem with rfl | hp₁
          · simp [bne_self_eq_false] at hpne
          · rcases hh₁ with hh₁ | rfl
            · exact (hcl _ hh₁).2 (statsKey_starts_stats u ct) p hp₁
            · simp at hp₁

theorem inv_hget_stats {s : Store} (hinv : Inv s) {u ct f : String} {v : RVal}
    (hv : hget s (generateStatsKey u ct) f = some v) :
    ∃ m : Int, v = RVal.str (intToString m) ∧ 0 < m := by
  have hne : storeGetHash s (generateStatsKey u ct) ≠ [] := by
    intro hnil
    rw [hget, hnil] at hv
    simp [hashGet] at hv
  have hmem := mem_of_storeGetHash_ne_nil hne
  have hfp : (f, v) ∈ storeGetHash s (generateStatsKey u ct) := hashGet_mem hv
  exact (hinv.2 _ hmem).2 (statsKey_starts_stats u ct) (f, v) hfp

theorem inv_statRead {s : Store} (hinv : Inv s) (u ct cat : String) :
    (hget s (generateStatsKey u ct) cat = none ∧
      statRead s (generateStatsKey u ct) cat = some 0) ∨
    (∃ m : Int, 0 < m ∧
      hget s (generateStatsKey u ct) cat = some (RVal.str (intToString m)) ∧
      statRead s (generateStatsKey u ct) cat = some m) := by
  cases hv : hget s (generateStatsKey u ct) cat with
  | none => exact Or.inl ⟨rfl, by rw [statRead, hv]⟩
  | some v =>
    obtain ⟨m, rfl, hm⟩ := inv_hget_stats hinv hv
    refine Or.inr ⟨m, hm, rfl, ?_⟩
    rw [statRead, hv]
    exact atoiRVal_intToString m

theorem inv_statRead_simple {s : Store} (hinv : Inv s) (u ct cat : String) :
    ∃ n : Int, 0 ≤ n ∧ statRead s (generateStatsKey u ct) cat = some n := by
  rcases inv_statRead hinv u ct cat with ⟨_, hs⟩ | ⟨m, hm, _, hs⟩
  · exact ⟨0, le_refl 0, hs⟩
  · exact ⟨m, le_of_lt hm, hs⟩

theorem save_preserves_inv (u ct : String) (body : Body) (ts : Int) (hf inf : Bool)
    {store : Store} (hinv : Inv store) : Inv (SaveCookie u ct body ts hf inf store).2 := by
  cases body with
  | malformed => simpa [SaveCookie] using hinv
  | parsed op cat v =>
    by_cases hval : op ≠ "saveCookie" ∨ v = ""
    · simpa [SaveCookie, hval] using hinv
    · cases hf with
      | true => simpa [SaveCookie, hval] using hinv
      | false =>
        have hcat : (if cat = "" then "default" else cat) ≠ "" := by
          by_cases hc : cat = ""
          · rw [if_pos hc]; decide
          · rw [if_neg hc]; exact hc
        have hinv1 : Inv (hset store (generateCookieKey u ct
            (if cat = "" then "default" else cat)) v
            (RVal.cookie ⟨v, if cat = "" then "default" else cat, ts⟩)) :=
          inv_hset_cookie hinv hcat
        cases inf with
        | true => simpa [SaveCookie, hval, jsonMarshalCookie] using hinv1
        | false =>
          obtain ⟨n, hn0, hstat⟩ := inv_statRead_simple hinv1 u ct
            (if cat = "" then "default" else cat)
          have hstep : hincrby (hset store (generateCookieKey u ct
              (if cat = "" then "default" else cat)) v
              (RVal.cookie ⟨v, if cat = "" then "default" else cat, ts⟩))
              (generateStatsKey u ct) (if cat = "" then "default" else cat) 1
              = some (hset (hset store (generateCookieKey u ct
                  (if cat = "" then "default" else cat)) v
                  (RVal.cookie ⟨v, if cat = "" then "default" else cat, ts⟩))
                  (generateStatsKey u ct) (if cat = "" then "default" else cat)
                  (RVal.str (intToString (n + 1))), n + 1) := by
            rw [hincrby, hstat]
          simp only [SaveCookie, hval, if_false, Bool.false_eq_true, jsonMarshalCookie, hstep]
          exact inv_hset_stats hinv1 (by omega)

theorem inv_removeUpdateStats {store1 : Store} (hinv1 : Inv store1) (u ct rc : String) :
    Inv (removeUpdateStats store1 (generateStatsKey u ct) rc) := by
  obtain ⟨n, hn0, hstat⟩ := inv_statRead_simple hinv1 u ct rc
  have hstep : hincrby store1 (generateStatsKey u ct) rc (-1)
      = some (hset store1 (generateStatsKey u ct) rc
          (RVal.str (intToString (n + -1))), n + -1) := by
    rw [hincrby, hstat]
  have hg2 : hget (hset store1 (generateStatsKey u ct) rc
      (RVal.str (intToString (n + -1)))) (generateStatsKey u ct) rc
      = some (RVal.str (intToString (n + -1))) := hget_hset_self _ _ _ _
  by_cases hrange : n + -1 ≤ 9223372036854775807
  · simp only [removeUpdateStats, hstep, hg2,
      goAtoiRVal_intToString (by omega : -9223372036854775808 ≤ n + -1) hrange]
    by_cases hle : n + -1 ≤ 0
    · simpa [hle] using inv_hset_then_hdel hinv1 u ct rc _
    · simpa [hle] using inv_hset_stats hinv1 (by omega : (0 : Int) < n + -1)
  · simp only [removeUpdateStats, hstep, hg2,
      goAtoiRVal_intToString_big (by omega : 9223372036854775807 < n + -1)]
    exact inv_hset_stats hinv1 (by omega : (0 : Int) < n + -1)

theorem remove_preserves_inv (u ct : String) (body : Body) {store : Store}
    (hinv : Inv store) : Inv (RemoveCookie u ct body store).2 := by
  cases body with
  | malformed => simpa [RemoveCookie] using hinv
  | parsed op cat v =>
    by_cases hval : op ≠ "removeCookie" ∨ v = ""
    · simpa [RemoveCookie, hval] using hinv
    · cases hfind : (keysMatching store (listBase u ct ++ "*")).find?
          (fun k => hexists store k v) with
      | none =>
        simp only [RemoveCookie, hval, if_false, findAndRemove_of_find_none hfind]
        simpa using hinv
      | some k =>
        have hinv1 : Inv (hdel store k v) := inv_hdel hinv k v
        by_cases hrc : extractCategory store k v = ""
        · simp only [RemoveCookie, hval, if_false, findAndRemove_of_find_some hfind, hrc]
          simpa using hinv1
        · simp only [RemoveCookie, hval, if_false, findAndRemove_of_find_some hfind,
            if_neg hrc]
          simpa using inv_removeUpdateStats hinv1 u ct (extractCategory store k v)

theorem handle_preserves_inv (u ct : String) (body : Body) (ts : Int) (hf inf : Bool)
    {store : Store} (hinv : Inv store) :
    Inv (HandleCookieOperations u ct body ts hf inf store).2 := by
  cases body with
  | malformed => simpa [HandleCookieOperations] using hinv
  | parsed op cat v =>
    by_cases h1 : op = "saveCookie"
    · simpa [HandleCookieOperations, h1]
        using save_preserves_inv u ct (Body.parsed op cat v) ts hf inf hinv
    · by_cases h2 : op = "removeCookie"
      · simpa [HandleCookieOperations, h1, h2]
          using remove_preserves_inv u ct (Body.parsed op cat v) hinv
      · simpa [HandleCookieOperations, h1, h2] using hinv

theorem route_preserves_inv (configKey : String) (req : Request) (env : Env)
    {store : Store} (hinv : Inv store) : Inv (route configKey req env store).2 := by
  obtain ⟨method, userID, cookieType, statsPath, apiKey, body, qtyStr, randomStr, categoryQ⟩
    := req
  cases method with
  | GET =>
    cases statsPath with
    | false =>
      simp only [route, Authenticate]
      by_cases hauth : (apiKey.getD "") ≠ configKey
      · simpa [hauth] using hinv
      · simpa [hauth] using hinv
    | true =>
      simp only [route, Authenticate]
      by_cases hauth : (apiKey.getD "") ≠ configKey
      · simpa [hauth] using hinv
      · simpa [hauth] using hinv
  | POST =>
    cases statsPath with
    | false =>
      simp only [route, Authenticate]
      by_cases hauth : (apiKey.getD "") ≠ configKey
      · simpa [hauth] using hinv
      · simpa [hauth] using handle_preserves_inv userID cookieType body env.timestamp
          env.hsetFails env.incrFails hinv
    | true => simpa [route] using hinv

theorem reachable_inv {store : Store} (h : Reachable store) : Inv store := by
  induction h with
  | init => exact inv_empty
  | step configKey req env store _ ih => exact route_preserves_inv configKey req env ih

/-! ### Further helper lemmas for the claim proofs -/

theorem globMatch_lit_head : ∀ {lit : List Char}, metaFree lit → ∀ {rest s : List Char},
    globMatch (lit ++ rest) s = true → ∃ t, s = lit ++ t := by
  intro lit
  induction lit with
  | nil => intro _ rest s _; exact ⟨s, rfl⟩
  | cons a ps ih =>
    intro hmf rest s h
    obtain ⟨ha1, ha2, ha3, ha4⟩ := hmf a (List.mem_cons_self _ _)
    have hps : metaFree ps := fun d hd => hmf d (List.mem_cons_of_mem _ hd)
    cases s with
    | nil =>
      rw [List.cons_append, globMatch_nil_right] at h
      exact Bool.noConfusion h
    | cons c s' =>
      rw [List.cons_append, globMatch_consume ha1, globStep_lit ha2 ha3 ha4,
        Bool.and_eq_true] at h
      obtain ⟨hac, hrest⟩ := h
      have hac' : a = c := beq_iff_eq.1 hac
      cases s' with
      | nil =>
        simp only [List.isEmpty_nil, if_true, List.all_append,
          metaFree_all_star hps, Bool.and_eq_true] at hrest
        have hpsnil : ps = [] := by simpa using hrest.1
        exact ⟨[], by simp [hac', hpsnil]⟩
      | cons e s'' =>
        simp only [List.isEmpty_cons, Bool.false_eq_true, if_false] at hrest
        obtain ⟨t, ht⟩ := ih hps hrest
        exact ⟨t, by rw [hac', ht, List.cons_append]⟩

theorem keysMatching_hset_no_match {s : Store} {k f : String} {v : RVal} {pat : String}
    (hnm : globMatch pat.data k.data = false) :
    keysMatching (hset s k f v) pat = keysMatching s pat := by
  unfold keysMatching
  induction s with
  | nil => simp [hset, hnm]
  | cons e rest ih =>
    obtain ⟨k', h⟩ := e
    by_cases hk : k' = k
    · subst hk
      simp [hset]
    · simp only [hset, if_neg hk, List.map_cons, List.filter_cons]
      rw [ih]

theorem collect_congr {s₁ s₂ : Store} : ∀ {ks : List String},
    (∀ k ∈ ks, hgetall s₁ k = hgetall s₂ k) →
    collectCookies s₁ ks = collectCookies s₂ ks := by
  intro ks
  induction ks with
  | nil => intro _; rfl
  | cons k rest ih =>
    intro hall
    simp only [collectCookies]
    rw [hall k (List.mem_cons_self _ _),
      ih (fun k' hk' => hall k' (List.mem_cons_of_mem _ hk'))]

theorem wf_hash_nodup {s : Store} (hwf : StoreWF s) (k : String) :
    ((storeGetHash s k).map Prod.fst).Nodup := by
  by_cases hne : storeGetHash s k = []
  · simp [hne]
  · exact hwf.2 _ (mem_of_storeGetHash_ne_nil hne)

theorem filter_fields_eq_nil {h : Hash} {f : String}
    (hf : f ∉ h.map Prod.fst) : h.filter (fun p => p.1 == f) = [] := by
  induction h with
  | nil => rfl
  | cons p rest ih =>
    obtain ⟨f', v'⟩ := p
    simp only [List.map_cons, List.mem_cons, not_or] at hf
    have hbe : (f' == f) = false := beq_eq_false_iff_ne.2 (fun he => hf.1 he.symm)
    simp [List.filter_cons, hbe, ih hf.2]

theorem filter_hashSet_self {h : Hash} {f : String} {v : RVal}
    (hnd : (h.map Prod.fst).Nodup) :
    (hashSet h f v).filter (fun p => p.1 == f) = [(f, v)] := by
  induction h with
  | nil => simp [hashSet]
  | cons p rest ih =>
    obtain ⟨f', v'⟩ := p
    simp only [List.map_cons, List.nodup_cons] at hnd
    by_cases hf : f' = f
    · subst hf
      have hstep : hashSet ((f', v') :: rest) f' v = (f', v) :: rest := by
        simp [hashSet]
      rw [hstep, List.filter_cons]
      simp [filter_fields_eq_nil hnd.1]
    · have hstep : hashSet ((f', v') :: rest) f v = (f', v') :: hashSet rest f v := by
        simp [hashSet, hf]
      rw [hstep, List.filter_cons]
      have hbe : (f' == f) = false := beq_eq_false_iff_ne.2 hf
      simp [hbe, ih hnd.2]

theorem hincrby_shape {s : Store} {k f : String} {delta : Int} {pr : Store × Int}
    (h : hincrby s k f delta = some pr) :
    pr = (hset s k f (RVal.str (intToString pr.2)), pr.2) := by
  unfold hincrby at h
  cases hst : statRead s k f with
  | none => rw [hst] at h; simp at h
  | some n =>
    rw [hst] at h
    simp only [Option.some.injEq] at h
    rw [← h]

theorem removeUpdateStats_other_keys (store1 : Store) (sk rc : String) {x : String}
    (hx : x ≠ sk) :
    storeGetHash (removeUpdateStats store1 sk rc) x = storeGetHash store1 x := by
  cases hi : hincrby store1 sk rc (-1) with
  | none =>
    cases hg : hget store1 sk rc with
    | none => simp [removeUpdateStats, hi, hg]
    | some v =>
      cases ha : goAtoiRVal v with
      | none => simp [removeUpdateStats, hi, hg, ha]
      | some count =>
        by_cases hle : count ≤ 0
        · simp [removeUpdateStats, hi, hg, ha, hle, storeGetHash_hdel_ne _ _ hx]
        · simp [removeUpdateStats, hi, hg, ha, hle]
  | some pr =>
    have hsh := hincrby_shape hi
    obtain ⟨s', m⟩ := pr
    injection hsh with hsh1 _
    have hsh1' : s' = hset store1 sk rc (RVal.str (intToString m)) := by simpa using hsh1
    clear hsh1
    subst hsh1'
    have hbase : storeGetHash (hset store1 sk rc (RVal.str (intToString m))) x
        = storeGetHash store1 x := storeGetHash_hset_ne _ _ _ hx
    cases hg : hget (hset store1 sk rc (RVal.str (intToString m))) sk rc with
    | none => simp [removeUpdateStats, hi, hg, hbase]
    | some v =>
      cases ha : goAtoiRVal v with
      | none => simp [removeUpdateStats, hi, hg, ha, hbase]
      | some count =>
        by_cases hle : count ≤ 0
        · rw [show removeUpdateStats store1 sk rc
              = hdel (hset store1 sk rc (RVal.str (intToString m))) sk rc from by
            simp [removeUpdateStats, hi, hg, ha, hle]]
          rw [storeGetHash_hdel_ne _ _ hx]
          exact hbase
        · simp [removeUpdateStats, hi, hg, ha, hle, hbase]

/-- Every key the removal / unfiltered-list pattern matches extends `cookies:`. -/
theorem keysMatching_listBase_starts_cookies {store : Store} {u ct k : String}
    (hk : k ∈ keysMatching store (listBase u ct ++ "*")) :
    strStarts ("cookies:" : String).data k.data = true := by
  have hpat : (listBase u ct ++ ("*" : String)).data
      = ("cookies:" : String).data ++ (u.data ++ (':' :: (ct.data ++ (':' :: ['*'])))) := by
    simp [listBase, strData_append, cookies_data]
  have hglob := (mem_keysMatching.1 hk).2
  rw [hpat] at hglob
  obtain ⟨t, hkt⟩ := globMatch_lit_head (by decide) hglob
  rw [hkt]
  exact strStarts_append_self _ _

/-! ### Claim theorems -/

/-- C1: over any well-formed keyspace, Remove with tag `removeCookie` and a
non-empty value always reports success; when no enumerated key's hash contains the
value the keyspace is unchanged, and otherwise exactly the first enumerated key
containing it loses that one field — its other fields and the hash of every other
cookies-prefixed key stay untouched. -/
theorem remove_first_match_only (store : Store) (u ct cat v : String)
    (hwf : StoreWF store) (hv : v ≠ "") :
    (RemoveCookie u ct (Body.parsed "removeCookie" cat v) store).1 = Response.success ∧
    (match (keysMatching store (listBase u ct ++ "*")).find?
        (fun k' => hexists store k' v) with
     | none => (RemoveCookie u ct (Body.parsed "removeCookie" cat v) store).2 = store
     | some k =>
        hget (RemoveCookie u ct (Body.parsed "removeCookie" cat v) store).2 k v = none ∧
        (∀ f, f ≠ v →
          hget (RemoveCookie u ct (Body.parsed "removeCookie" cat v) store).2 k f
            = hget store k f) ∧
        (∀ k', strStarts ("cookies:" : String).data k'.data = true → k' ≠ k →
          storeGetHash (RemoveCookie u ct (Body.parsed "removeCookie" cat v) store).2 k'
            = storeGetHash store k')) := by
  have hval : ¬("removeCookie" ≠ "removeCookie" ∨ v = "") := by simp [hv]
  cases hfind : (keysMatching store (listBase u ct ++ "*")).find?
      (fun k' => hexists store k' v) with
  | none =>
    constructor
    · simp [RemoveCookie, hv, hval, findAndRemove_of_find_none hfind]
    · simp [RemoveCookie, hv, hval, findAndRemove_of_find_none hfind]
  | some k =>
    have hkmem : k ∈ keysMatching store (listBase u ct ++ "*") :=
      List.mem_of_find?_eq_some hfind
    have hkpre := keysMatching_listBase_starts_cookies hkmem
    have hkne : k ≠ generateStatsKey u ct := ne_statsKey_of_cookies hkpre u ct
    have hs' : (RemoveCookie u ct (Body.parsed "removeCookie" cat v) store).2
        = (if extractCategory store k v = "" then hdel store k v
           else removeUpdateStats (hdel store k v) (generateStatsKey u ct)
             (extractCategory store k v)) := by
      by_cases hrc : extractCategory store k v = ""
      · simp [RemoveCookie, hv, hval, findAndRemove_of_find_some hfind, hrc]
      · simp [RemoveCookie, hv, hval, findAndRemove_of_find_some hfind, hrc]
    have hagree : ∀ x : String, x ≠ generateStatsKey u ct →
        storeGetHash ((RemoveCookie u ct (Body.parsed "removeCookie" cat v) store).2) x
          = storeGetHash (hdel store k v) x := by
      intro x hx
      rw [hs']
      by_cases hrc : extractCategory store k v = ""
      · rw [if_pos hrc]
      · rw [if_neg hrc]
        exact removeUpdateStats_other_keys _ _ _ hx
    have hsucc : (RemoveCookie u ct (Body.parsed "removeCookie" cat v) store).1
        = Response.success := by
      by_cases hrc : extractCategory store k v = ""
      · simp [RemoveCookie, hv, hval, findAndRemove_of_find_some hfind, hrc]
      · simp [RemoveCookie, hv, hval, findAndRemove_of_find_some hfind, hrc]
    refine ⟨hsucc, ?_, ?_, ?_⟩
    · rw [hget, hagree k hkne, storeGetHash_hdel_self _ _ _ hwf.1]
      exact hashGet_filter_self _ _
    · intro f hf
      rw [hget, hagree k hkne, storeGetHash_hdel_self _ _ _ hwf.1]
      exact hashGet_filter_ne _ hf
    · intro k' hk'pre hk'ne
      rw [hagree k' (ne_statsKey_of_cookies hk'pre u ct)]
      exact storeGetHash_hdel_ne _ _ hk'ne

/-- C1 witness: on `twoCatStore` the remove of "v1" succeeds and the per-key
conclusions hold at the first matching key. -/
theorem remove_first_match_only_w :
    ("v1" : String) ≠ "" ∧ StoreWF twoCatStore ∧
    ((RemoveCookie "u" "t" (Body.parsed "removeCookie" "" "v1") twoCatStore).1
        = Response.success ∧
      (match (keysMatching twoCatStore (listBase "u" "t" ++ "*")).find?
          (fun k' => hexists twoCatStore k' "v1") with
       | none => (RemoveCookie "u" "t" (Body.parsed "removeCookie" "" "v1") twoCatStore).2
          = twoCatStore
       | some k =>
          hget (RemoveCookie "u" "t" (Body.parsed "removeCookie" "" "v1") twoCatStore).2
            k "v1" = none ∧
          (∀ f, f ≠ "v1" →
            hget (RemoveCookie "u" "t" (Body.parsed "removeCookie" "" "v1") twoCatStore).2
              k f = hget twoCatStore k f) ∧
          (∀ k', strStarts ("cookies:" : String).data k'.data = true → k' ≠ k →
            storeGetHash
              (RemoveCookie "u" "t" (Body.parsed "removeCookie" "" "v1") twoCatStore).2 k'
              = storeGetHash twoCatStore k'))) :=
  ⟨by decide, by decide,
    remove_first_match_only twoCatStore "u" "t" "" "v1" (by decide) (by decide)⟩

/-- C3: for a parseable body, Save answers InvalidRequest (HTTP 400) exactly when
the cookie value is empty or the operation tag is not `saveCookie`; and whenever
the record write succeeds the handler reports success for every outcome of the
best-effort stats increment, whose failure is never surfaced. -/
theorem save_invalid_iff_and_stats_best_effort
    (u ct op cat v : String) (ts : Int) (hf inf : Bool) (store : Store) :
    ((SaveCookie u ct (Body.parsed op cat v) ts hf inf store).1
        = Response.error "Invalid request" 400 ↔ (v = "" ∨ op ≠ "saveCookie")) ∧
    (op = "saveCookie" → v ≠ "" → ∀ inf' : Bool,
      (SaveCookie u ct (Body.parsed op cat v) ts false inf' store).1
        = Response.success) := by
  constructor
  · constructor
    · intro hres
      by_contra hcon
      push_neg at hcon
      obtain ⟨hvv, hop⟩ := hcon
      subst hop
      have hval : ¬("saveCookie" ≠ "saveCookie" ∨ v = "") := by simp [hvv]
      cases hf with
      | true => simp [SaveCookie, hvv, hval] at hres
      | false => simp [SaveCookie, hvv, hval] at hres
    · intro hiv
      have hval : op ≠ "saveCookie" ∨ v = "" := Or.symm hiv
      rcases hval with h | h
      · simp [SaveCookie, h]
      · simp [SaveCookie, h]
  · intro hop hvv inf'
    subst hop
    have hval : ¬("saveCookie" ≠ "saveCookie" ∨ v = "") := by simp [hvv]
    simp [SaveCookie, hvv, hval]

/-- C3 witness: a concrete save whose stats increment is injected to fail still
reports success. -/
theorem save_invalid_iff_and_stats_best_effort_w :
    (SaveCookie "u1" "session" (Body.parsed "saveCookie" "" "tok") 5 false true []).1
      = Response.success :=
  (save_invalid_iff_and_stats_best_effort "u1" "session" "saveCookie" "" "tok" 5 false
    true []).2 rfl (by decide) true

/-- C5: in every reachable keyspace each stored stats counter parses as a positive
integer — Remove deletes a counter whose decremented value is non-positive, so no
non-positive counter survives an operation — and the mapping GetStats returns (over
any keyspace) lists exactly the categories whose stored counter parses positive,
with that parsed value. -/
theorem stats_positive_counts (store : Store) (hreach : Reachable store) :
    (∀ u ct, ∀ p ∈ hgetall store (generateStatsKey u ct),
      ∃ m : Int, atoiRVal p.2 = some m ∧ 0 < m) ∧
    (∀ (s₂ : Store) (u ct : String) (d : List (String × Int)),
      GetStats u ct s₂ = Response.stats d →
      ∀ q ∈ d, ∃ v, (q.1, v) ∈ hgetall s₂ (generateStatsKey u ct) ∧
        atoiRVal v = some q.2 ∧ 0 < q.2) := by
  have hinv := reachable_inv hreach
  constructor
  · intro u ct p hp
    have hne : storeGetHash store (generateStatsKey u ct) ≠ [] :=
      List.ne_nil_of_mem hp
    have hmem := mem_of_storeGetHash_ne_nil hne
    obtain ⟨m, hm1, hm2⟩ := (hinv.2 _ hmem).2 (statsKey_starts_stats u ct) p hp
    refine ⟨m, ?_, hm2⟩
    rw [hm1]
    exact atoiRVal_intToString m
  · intro s₂ u ct d hd q hq
    simp only [GetStats, Response.stats.injEq] at hd
    subst hd
    obtain ⟨p, hp, hpq⟩ := List.mem_filterMap.1 hq
    cases ha : goAtoiRVal p.2 with
    | none => rw [ha] at hpq; simp at hpq
    | some count =>
      rw [ha] at hpq
      by_cases hc : 0 < count
      · have hpq' : some (p.1, count) = some q := by
          rw [← hpq]
          simp [hc]
        injection hpq' with hpq'
        subst hpq'
        exact ⟨p.2, hp, atoiRVal_of_goAtoiRVal ha, hc⟩
      · have hpq' : (none : Option (String × Int)) = some q := by
          rw [← hpq]
          simp [hc]
        exact Option.noConfusion hpq'

/-- C5 witness at the initial keyspace. -/
theorem stats_positive_counts_w :
    (∀ u ct, ∀ p ∈ hgetall ([] : Store) (generateStatsKey u ct),
      ∃ m : Int, atoiRVal p.2 = some m ∧ 0 < m) ∧
    (∀ (s₂ : Store) (u ct : String) (d : List (String × Int)),
      GetStats u ct s₂ = Response.stats d →
      ∀ q ∈ d, ∃ v, (q.1, v) ∈ hgetall s₂ (generateStatsKey u ct) ∧
        atoiRVal v = some q.2 ∧ 0 < q.2) :=
  stats_positive_counts [] Reachable.init

/-- C8: a request to any of the four routed operations carrying a missing or
mismatching x-api-key header is answered 401 Unauthorized with the keyspace
returned unchanged, over every keyspace — so the backing store is neither read
(the response is the same for all keyspaces) nor written. -/
theorem auth_rejects_untouched (configKey : String) (req : Request) (env : Env)
    (store : Store) (hcfg : configKey ≠ "")
    (hmiss : req.apiKey = none ∨ req.apiKey.getD "" ≠ configKey)
    (hroutes : req.method = Method.GET ∨ req.statsPath = false) :
    route configKey req env store = (Response.error "Unauthorized" 401, store) := by
  obtain ⟨method, userID, cookieType, statsPath, apiKey, body, qtyStr, randomStr, categoryQ⟩
    := req
  have hne : apiKey.getD "" ≠ configKey := by
    rcases hmiss with h | h
    · rw [show apiKey = none from h]
      exact fun he => hcfg he.symm
    · exact h
  cases method with
  | GET =>
    cases statsPath with
    | false => simp [route, Authenticate, hne]
    | true => simp [route, Authenticate, hne]
  | POST =>
    cases statsPath with
    | false => simp [route, Authenticate, hne]
    | true =>
      rcases hroutes with h | h <;> simp at h

/-- C8 witness: a GET list request with no api-key header. -/
theorem auth_rejects_untouched_w :
    route "k0" ⟨Method.GET, "u1", "session", false, none, Body.malformed, "", "", ""⟩
      ⟨0, fun _ => 0, false, false⟩ [] = (Response.error "Unauthorized" 401, []) :=
  auth_rejects_untouched "k0" _ _ [] (by decide) (Or.inl rfl) (Or.inl rfl)

/-- C9 as stated is false: a GET to the combined cookies path is routed to the
List handler, which ignores the operation tag, so a GET carrying an unrecognized
operation yields the cookie list (HTTP 200), not an InvalidRequest 400. -/
theorem get_combined_unrecognized_op_cex :
    (route "k0" ⟨Method.GET, "u1", "session", false, some "k0",
        Body.parsed "bogus" "" "", "", "", ""⟩ ⟨0, fun _ => 0, false, false⟩ []).1
      = Response.cookieList [] ∧
    ∀ msg : String,
      (route "k0" ⟨Method.GET, "u1", "session", false, some "k0",
          Body.parsed "bogus" "" "", "", "", ""⟩ ⟨0, fun _ => 0, false, false⟩ []).1
        ≠ Response.error msg 400 := by
  have h1 : (route "k0" ⟨Method.GET, "u1", "session", false, some "k0",
      Body.parsed "bogus" "" "", "", "", ""⟩ ⟨0, fun _ => 0, false, false⟩ []).1
      = Response.cookieList [] := by decide
  refine ⟨h1, fun msg h => ?_⟩
  rw [h1] at h
  exact Response.noConfusion h

/-- C9 (amended): a POST to the combined endpoint whose parseable body carries an
operation tag other than `saveCookie` and `removeCookie` fails with InvalidRequest
(HTTP 400) and leaves the keyspace unchanged; a GET to that path is routed to the
List handler instead of the dispatcher, so the 400 applies to POST requests. -/
theorem post_unrecognized_op_400 (configKey u ct : String) (env : Env) (store : Store)
    (op cat v qs rs cq : String) (hop1 : op ≠ "saveCookie") (hop2 : op ≠ "removeCookie") :
    route configKey ⟨Method.POST, u, ct, false, some configKey, Body.parsed op cat v,
      qs, rs, cq⟩ env store = (Response.error "Invalid operation" 400, store) := by
  simp [route, Authenticate, HandleCookieOperations, hop1, hop2]

/-- C9 witness: a concrete unrecognized-operation POST. -/
theorem post_unrecognized_op_400_w :
    route "k0" ⟨Method.POST, "u1", "session", false, some "k0",
      Body.parsed "bogus" "" "x", "", "", ""⟩ ⟨0, fun _ => 0, false, false⟩ []
      = (Response.error "Invalid operation" 400, []) :=
  post_unrecognized_op_400 "k0" "u1" "session" _ [] "bogus" "" "x" "" "" ""
    (by decide) (by decide)

/-- C10: in every reachable keyspace, every record under a cookies-prefixed key is
a marshalled record keyed by its own value whose non-empty embedded category is
exactly the category segment its key was generated from; consequently, when the
Remove scan deletes a value from a key, the category it reports for the stats
decrement is that key's category segment. -/
theorem reachable_records_wellformed (store : Store) (hreach : Reachable store) :
    (∀ e ∈ store, strStarts ("cookies:" : String).data e.1.data = true →
      ∀ p ∈ e.2, ∃ c, p.2 = RVal.cookie c ∧ c.cookie = p.1 ∧ c.category ≠ "" ∧
        ∃ u' ct', e.1 = generateCookieKey u' ct' c.category) ∧
    (∀ u ct v k, (keysMatching store (listBase u ct ++ "*")).find?
        (fun k' => hexists store k' v) = some k →
      ∃ c, hget store k v = some (RVal.cookie c) ∧ c.cookie = v ∧ c.category ≠ "" ∧
        (∃ u' ct', k = generateCookieKey u' ct' c.category) ∧
        (findAndRemove store v (keysMatching store (listBase u ct ++ "*"))).2
          = c.category) := by
  have hinv := reachable_inv hreach
  constructor
  · intro e he hpre p hp
    exact (hinv.2 e he).1 hpre p hp
  · intro u ct v k hfind
    have hkmem : k ∈ keysMatching store (listBase u ct ++ "*") :=
      List.mem_of_find?_eq_some hfind
    have hex : hexists store k v = true := by
      have := List.find?_some hfind
      simpa using this
    obtain ⟨val, hval⟩ : ∃ val, hget store k v = some val := by
      cases hg : hget store k v with
      | none => rw [hexists, hg] at hex; simp at hex
      | some val => exact ⟨val, rfl⟩
    have hkpre := keysMatching_listBase_starts_cookies hkmem
    have hne : storeGetHash store k ≠ [] := by
      intro hnil
      rw [hget, hnil] at hval
      simp [hashGet] at hval
    have hmem := mem_of_storeGetHash_ne_nil hne
    have hvp : (v, val) ∈ storeGetHash store k := hashGet_mem hval
    obtain ⟨c, hc1, hc2, hc3, hc4⟩ := (hinv.2 _ hmem).1 hkpre (v, val) hvp
    have hc1' : val = RVal.cookie c := hc1
    subst hc1'
    refine ⟨c, hval, hc2, hc3, hc4, ?_⟩
    rw [findAndRemove_of_find_some hfind]
    simp only [extractCategory, hval, jsonUnmarshalCookie]

/-- C10 witness at the initial keyspace. -/
theorem reachable_records_wellformed_w :
    (∀ e ∈ ([] : Store), strStarts ("cookies:" : String).data e.1.data = true →
      ∀ p ∈ e.2, ∃ c, p.2 = RVal.cookie c ∧ c.cookie = p.1 ∧ c.category ≠ "" ∧
        ∃ u' ct', e.1 = generateCookieKey u' ct' c.category) ∧
    (∀ u ct v k, (keysMatching ([] : Store) (listBase u ct ++ "*")).find?
        (fun k' => hexists ([] : Store) k' v) = some k →
      ∃ c, hget ([] : Store) k v = some (RVal.cookie c) ∧ c.cookie = v ∧ c.category ≠ "" ∧
        (∃ u' ct', k = generateCookieKey u' ct' c.category) ∧
        (findAndRemove ([] : Store) v (keysMatching ([] : Store) (listBase u ct ++ "*"))).2
          = c.category) :=
  reachable_records_wellformed [] Reachable.init

/-- The response of `GetCookies` once the qty parameter parsed to `q`: collect,
conditionally shuffle, conditionally truncate. -/
theorem getCookies_valid_shape (store : Store) (u ct qtyStr randomStr catQ : String)
    (rnd : Nat → Nat) (q : Int)
    (hqd : (if qtyStr = "" then some 0
        else match goAtoi? qtyStr with
          | none => none
          | some q' => if q' ≤ 0 then none else some q') = some q) :
    GetCookies u ct qtyStr randomStr catQ rnd store
      = Response.cookieList
          (if 0 < q ∧ q < (((if (randomStr = "true") ∧
                0 < (collectCookies store (keysMatching store
                  (if catQ ≠ "" then generateCookieKey u ct catQ
                   else listBase u ct ++ "*"))).length
              then shuffleGo rnd (collectCookies store (keysMatching store
                  (if catQ ≠ "" then generateCookieKey u ct catQ
                   else listBase u ct ++ "*")))
              else collectCookies store (keysMatching store
                  (if catQ ≠ "" then generateCookieKey u ct catQ
                   else listBase u ct ++ "*"))).length : Nat) : Int)
            then (if (randomStr = "true") ∧
                0 < (collectCookies store (keysMatching store
                  (if catQ ≠ "" then generateCookieKey u ct catQ
                   else listBase u ct ++ "*"))).length
              then shuffleGo rnd (collectCookies store (keysMatching store
                  (if catQ ≠ "" then generateCookieKey u ct catQ
                   else listBase u ct ++ "*")))
              else collectCookies store (keysMatching store
                  (if catQ ≠ "" then generateCookieKey u ct catQ
                   else listBase u ct ++ "*"))).take q.toNat
            else (if (randomStr = "true") ∧
                0 < (collectCookies store (keysMatching store
                  (if catQ ≠ "" then generateCookieKey u ct catQ
                   else listBase u ct ++ "*"))).length
              then shuffleGo rnd (collectCookies store (keysMatching store
                  (if catQ ≠ "" then generateCookieKey u ct catQ
                   else listBase u ct ++ "*")))
              else collectCookies store (keysMatching store
                  (if catQ ≠ "" then generateCookieKey u ct catQ
                   else listBase u ct ++ "*")))) := by
  simp only [GetCookies, hqd]

/-- C6: List rejects a present qty parameter that fails `strconv.Atoi` — bad
syntax or outside int64 — or parses non-positive with InvalidRequest (HTTP 400);
with a valid positive qty over the n collected matching records it returns exactly
min(qty, n) of them — the full collection is shuffled first when random=true, then
truncated, so the result is a sub-multiset of the collection — and it returns the
empty list when nothing matches. -/
theorem list_qty_validation_and_cap (store : Store) (u ct qtyStr randomStr catQ : String)
    (rnd : Nat → Nat) :
    (qtyStr ≠ "" → (goAtoi? qtyStr = none ∨ ∃ q, goAtoi? qtyStr = some q ∧ q ≤ 0) →
      GetCookies u ct qtyStr randomStr catQ rnd store
        = Response.error "Invalid qty parameter" 400) ∧
    (∀ q : Int, goAtoi? qtyStr = some q → 0 < q →
      ∃ l, GetCookies u ct qtyStr randomStr catQ rnd store = Response.cookieList l ∧
        l.length = min q.toNat (collectCookies store (keysMatching store
          (if catQ ≠ "" then generateCookieKey u ct catQ
           else listBase u ct ++ "*"))).length ∧
        List.Subperm l (collectCookies store (keysMatching store
          (if catQ ≠ "" then generateCookieKey u ct catQ
           else listBase u ct ++ "*")))) ∧
    (collectCookies store (keysMatching store
        (if catQ ≠ "" then generateCookieKey u ct catQ else listBase u ct ++ "*")) = [] →
      (qtyStr = "" ∨ ∃ q, goAtoi? qtyStr = some q ∧ 0 < q) →
      GetCookies u ct qtyStr randomStr catQ rnd store = Response.cookieList []) := by
  refine ⟨?_, ?_, ?_⟩
  · intro hne hbad
    have hq : (if qtyStr = "" then some 0
        else match goAtoi? qtyStr with
          | none => none
          | some q' => if q' ≤ 0 then none else some q') = (none : Option Int) := by
      rw [if_neg hne]
      rcases hbad with hb | ⟨q, hb, hq0⟩
      · rw [hb]
      · rw [hb]
        simp [hq0]
    simp [GetCookies, hq]
  · intro q hq hq0
    have hqs : qtyStr ≠ "" := by
      intro he
      rw [he, show goAtoi? "" = none from rfl] at hq
      exact Option.noConfusion hq
    have hqd : (if qtyStr = "" then some 0
        else match goAtoi? qtyStr with
          | none => none
          | some q' => if q' ≤ 0 then none else some q') = some q := by
      rw [if_neg hqs, hq]
      simp [show ¬ q ≤ 0 by omega]
    rw [getCookies_valid_shape store u ct qtyStr randomStr catQ rnd q hqd]
    set C := collectCookies store (keysMatching store
      (if catQ ≠ "" then generateCookieKey u ct catQ else listBase u ct ++ "*")) with hC
    set S := if (randomStr = "true") ∧ 0 < C.length then shuffleGo rnd C else C with hS
    have hsperm : List.Perm S C := by
      rw [hS]
      by_cases hr : (randomStr = "true") ∧ 0 < C.length
      · rw [if_pos hr]
        exact shuffleGo_perm rnd C
      · rw [if_neg hr]
    have hslen : S.length = C.length := hsperm.length_eq
    by_cases htr : 0 < q ∧ q < ((S.length : Nat) : Int)
    · refine ⟨S.take q.toNat, by rw [if_pos htr], ?_, ?_⟩
      · rw [List.length_take, hslen]
      · exact ((List.take_sublist _ _).subperm).trans hsperm.subperm
    · refine ⟨S, by rw [if_neg htr], ?_, hsperm.subperm⟩
      rw [hslen]
      have hlen : C.length ≤ q.toNat := by
        rcases not_and_or.1 htr with h | h
        · omega
        · rw [hslen] at h
          omega
      omega
  · intro hnil hok
    have hcnil : collectCookies store (keysMatching store
        (if catQ ≠ "" then generateCookieKey u ct catQ else listBase u ct ++ "*")) = [] :=
      hnil
    rcases hok with he | ⟨q, hq, hq0⟩
    · have hqd : (if qtyStr = "" then some 0
          else match goAtoi? qtyStr with
            | none => none
            | some q' => if q' ≤ 0 then none else some q') = some 0 := by
        rw [if_pos he]
      rw [getCookies_valid_shape store u ct qtyStr randomStr catQ rnd 0 hqd, hcnil]
      simp
    · have hqs : qtyStr ≠ "" := by
        intro he
        rw [he, show goAtoi? "" = none from rfl] at hq
        exact Option.noConfusion hq
      have hqd : (if qtyStr = "" then some 0
          else match goAtoi? qtyStr with
            | none => none
            | some q' => if q' ≤ 0 then none else some q') = some q := by
        rw [if_neg hqs, hq]
        simp [show ¬ q ≤ 0 by omega]
      rw [getCookies_valid_shape store u ct qtyStr randomStr catQ rnd q hqd, hcnil]
      simp

/-- C6 witness: qty=1 over a two-record keyspace returns exactly one of them. -/
theorem list_qty_validation_and_cap_w :
    ∃ l, GetCookies "u" "t" "1" "" "" (fun _ => 0) twoCatStore = Response.cookieList l ∧
      l.length = min (1 : Int).toNat (collectCookies twoCatStore (keysMatching twoCatStore
        (if ("" : String) ≠ "" then generateCookieKey "u" "t" ""
         else listBase "u" "t" ++ "*"))).length ∧
      List.Subperm l (collectCookies twoCatStore (keysMatching twoCatStore
        (if ("" : String) ≠ "" then generateCookieKey "u" "t" ""
         else listBase "u" "t" ++ "*"))) :=
  (list_qty_validation_and_cap twoCatStore "u" "t" "1" "" "" (fun _ => 0)).2.1 1
    (by decide) (by decide)

/-- The key generated for a metacharacter-free user, type and category contains
no glob metacharacter. -/
theorem metaFree_cookieKey {u ct X : String} (hu : GlobFree u) (hct : GlobFree ct)
    (hX : GlobFree X) : metaFree (generateCookieKey u ct X).data := by
  have hsplit : (generateCookieKey u ct X).data
      = ("cookies:" : String).data
        ++ (u.data ++ ([':'] ++ (ct.data ++ ([':'] ++ X.data)))) := by
    simp [cookieKey_data, cookies_data]
  rw [hsplit]
  exact metaFree_append (by decide) (metaFree_append (metaFree_of_globFree hu)
    (metaFree_append (by decide) (metaFree_append (metaFree_of_globFree hct)
      (metaFree_append (by decide) (metaFree_of_globFree hX)))))

/-- The namespace stem of a metacharacter-free user and type contains no glob
metacharacter. -/
theorem metaFree_listBase {u ct : String} (hu : GlobFree u) (hct : GlobFree ct) :
    metaFree (listBase u ct).data := by
  have hsplit : (listBase u ct).data
      = ("cookies:" : String).data ++ (u.data ++ ([':'] ++ (ct.data ++ [':']))) := by
    simp [listBase_data, cookies_data]
  rw [hsplit]
  exact metaFree_append (by decide) (metaFree_append (metaFree_of_globFree hu)
    (metaFree_append (by decide) (metaFree_append (metaFree_of_globFree hct)
      (by decide))))

/-- C7 as stated is false once the category parameter may contain glob
metacharacters: filtering on category "*" makes the handler's exact-key pattern a
wildcard, returning records from every category although nothing at all is stored
under a category named "*". -/
theorem list_category_filter_glob_cex :
    ¬ (∀ l, GetCookies "u" "t" "" "" "*" (fun _ => 0) twoCatStore
          = Response.cookieList l →
        ∀ rec ∈ l, ∃ p ∈ hgetall twoCatStore (generateCookieKey "u" "t" "*"),
          jsonUnmarshalCookie p.2 = some rec) := by
  intro h
  obtain ⟨p, hp, _⟩ := h [⟨"v1", "a", 1⟩, ⟨"v1", "b", 2⟩] (by decide)
    ⟨"v1", "a", 1⟩ (by decide)
  rw [show hgetall twoCatStore (generateCookieKey "u" "t" "*") = [] from by decide] at hp
  simp at hp

/-- C7 (amended): for a non-empty category parameter X free of every glob
metacharacter (`*`, `?`, `[`, `\`) — and metacharacter-free path identifiers —
every record returned by the filtered List comes from the hash stored at exactly
that category's key for that user and cookie type, so no other category or
namespace leaks into the response. -/
theorem list_category_filter_only (store : Store) (u ct X qtyStr randomStr : String)
    (rnd : Nat → Nat) (hX : X ≠ "") (hXg : GlobFree X) (hug : GlobFree u)
    (hctg : GlobFree ct) :
    ∀ l, GetCookies u ct qtyStr randomStr X rnd store = Response.cookieList l →
      ∀ rec ∈ l, ∃ p ∈ hgetall store (generateCookieKey u ct X),
        jsonUnmarshalCookie p.2 = some rec := by
  intro l hl rec hrec
  cases hqd : (if qtyStr = "" then some 0
      else match goAtoi? qtyStr with
        | none => none
        | some q' => if q' ≤ 0 then none else some q' : Option Int) with
  | none => simp [GetCookies, hqd] at hl
  | some q =>
    rw [getCookies_valid_shape store u ct qtyStr randomStr X rnd q hqd] at hl
    injection hl with hl
    rw [← hl] at hrec
    set C := collectCookies store (keysMatching store
      (if X ≠ "" then generateCookieKey u ct X else listBase u ct ++ "*")) with hC
    set S := if (randomStr = "true") ∧ 0 < C.length then shuffleGo rnd C else C with hS
    have hrecS : rec ∈ S := by
      by_cases htr : 0 < q ∧ q < ((S.length : Nat) : Int)
      · rw [if_pos htr] at hrec
        exact List.mem_of_mem_take hrec
      · rwa [if_neg htr] at hrec
    have hrecC : rec ∈ C := by
      have hsperm : List.Perm S C := by
        rw [hS]
        by_cases hr : (randomStr = "true") ∧ 0 < C.length
        · rw [if_pos hr]
          exact shuffleGo_perm rnd C
        · rw [if_neg hr]
      exact hsperm.mem_iff.1 hrecS
    rw [hC, if_pos hX] at hrecC
    obtain ⟨k, hk, p, hp, hup⟩ := mem_collectCookies.1 hrecC
    have hglob := (mem_keysMatching.1 hk).2
    have hkey : generateCookieKey u ct X = k := by
      exact strExt ((globMatch_litfree (metaFree_cookieKey hug hctg hXg) k.data).1 hglob)
    rw [← hkey] at hp
    exact ⟨p, hp, hup⟩

/-- C7 witness: a metacharacter-free filter on `twoCatStore` returns only category-a
records, all stored under that category's key. -/
theorem list_category_filter_only_w :
    ("a" : String) ≠ "" ∧
    (∀ l, GetCookies "u" "t" "" "" "a" (fun _ => 0) twoCatStore
          = Response.cookieList l →
      ∀ rec ∈ l, ∃ p ∈ hgetall twoCatStore (generateCookieKey "u" "t" "a"),
        jsonUnmarshalCookie p.2 = some rec) :=
  ⟨by decide, list_category_filter_only twoCatStore "u" "t" "a" "" "" (fun _ => 0)
    (by decide) (by decide) (by decide) (by decide)⟩

/-- A successful save (no injected failures) whose stats field reads as `n`
stores the record and bumps the counter to `n + 1`. -/
theorem saveCookie_success_eq (u ct cat v : String) (ts : Int) (store : Store)
    (hv : v ≠ "") {n : Int}
    (hsr : statRead (hset store (generateCookieKey u ct
        (if cat = "" then "default" else cat)) v
        (RVal.cookie ⟨v, if cat = "" then "default" else cat, ts⟩))
      (generateStatsKey u ct) (if cat = "" then "default" else cat) = some n) :
    SaveCookie u ct (Body.parsed "saveCookie" cat v) ts false false store
      = (Response.success,
         hset (hset store (generateCookieKey u ct (if cat = "" then "default" else cat)) v
            (RVal.cookie ⟨v, if cat = "" then "default" else cat, ts⟩))
          (generateStatsKey u ct) (if cat = "" then "default" else cat)
          (RVal.str (intToString (n + 1)))) := by
  have hincr : hincrby
      (hset store (generateCookieKey u ct (if cat = "" then "default" else cat)) v
        (RVal.cookie ⟨v, if cat = "" then "default" else cat, ts⟩))
      (generateStatsKey u ct) (if cat = "" then "default" else cat) 1
      = some (hset
          (hset store (generateCookieKey u ct (if cat = "" then "default" else cat)) v
            (RVal.cookie ⟨v, if cat = "" then "default" else cat, ts⟩))
          (generateStatsKey u ct) (if cat = "" then "default" else cat)
          (RVal.str (intToString (n + 1))), n + 1) := by
    unfold hincrby
    rw [hsr]
  simp [SaveCookie, hv, jsonMarshalCookie, hincr]

/-- C4: saving the same value twice into one category leaves exactly one entry for
that value in the category's hash — the second record overwrites the first — while
the category's counter is incremented on both saves, ending two above its initial
parsed value. -/
theorem double_save_overwrites_and_double_counts (store : Store) (u ct cat v : String)
    (ts₁ ts₂ : Int) (n : Int) (hwf : StoreWF store) (hv : v ≠ "")
    (hn : statRead store (generateStatsKey u ct)
      (if cat = "" then "default" else cat) = some n) :
    (SaveCookie u ct (Body.parsed "saveCookie" cat v) ts₁ false false store).1
      = Response.success ∧
    (SaveCookie u ct (Body.parsed "saveCookie" cat v) ts₂ false false
      (SaveCookie u ct (Body.parsed "saveCookie" cat v) ts₁ false false store).2).1
      = Response.success ∧
    statRead (SaveCookie u ct (Body.parsed "saveCookie" cat v) ts₂ false false
        (SaveCookie u ct (Body.parsed "saveCookie" cat v) ts₁ false false store).2).2
      (generateStatsKey u ct) (if cat = "" then "default" else cat) = some (n + 2) ∧
    (hgetall (SaveCookie u ct (Body.parsed "saveCookie" cat v) ts₂ false false
        (SaveCookie u ct (Body.parsed "saveCookie" cat v) ts₁ false false store).2).2
        (generateCookieKey u ct (if cat = "" then "default" else cat))).filter
        (fun p => p.1 == v)
      = [(v, RVal.cookie ⟨v, if cat = "" then "default" else cat, ts₂⟩)] := by
  have hKne : generateCookieKey u ct (if cat = "" then "default" else cat)
      ≠ generateStatsKey u ct :=
    ne_statsKey_of_cookies (cookieKey_starts_cookies u ct _) u ct
  have hskK : generateStatsKey u ct
      ≠ generateCookieKey u ct (if cat = "" then "default" else cat) := Ne.symm hKne
  have hsr1 : statRead
      (hset store (generateCookieKey u ct (if cat = "" then "default" else cat)) v
        (RVal.cookie ⟨v, if cat = "" then "default" else cat, ts₁⟩))
      (generateStatsKey u ct) (if cat = "" then "default" else cat) = some n := by
    unfold statRead at hn ⊢
    rw [hget, storeGetHash_hset_ne _ _ _ hskK, ← hget]
    exact hn
  have hsave1 := saveCookie_success_eq u ct cat v ts₁ store hv hsr1
  have hg2 : hget (hset
      (hset store (generateCookieKey u ct (if cat = "" then "default" else cat)) v
        (RVal.cookie ⟨v, if cat = "" then "default" else cat, ts₁⟩))
      (generateStatsKey u ct) (if cat = "" then "default" else cat)
      (RVal.str (intToString (n + 1))))
      (generateStatsKey u ct) (if cat = "" then "default" else cat)
      = some (RVal.str (intToString (n + 1))) := hget_hset_self _ _ _ _
  have hsr2 : statRead
      (hset (hset
          (hset store (generateCookieKey u ct (if cat = "" then "default" else cat)) v
            (RVal.cookie ⟨v, if cat = "" then "default" else cat, ts₁⟩))
          (generateStatsKey u ct) (if cat = "" then "default" else cat)
          (RVal.str (intToString (n + 1))))
        (generateCookieKey u ct (if cat = "" then "default" else cat)) v
        (RVal.cookie ⟨v, if cat = "" then "default" else cat, ts₂⟩))
      (generateStatsKey u ct) (if cat = "" then "default" else cat) = some (n + 1) := by
    unfold statRead
    rw [hget, storeGetHash_hset_ne _ _ _ hskK, ← hget, hg2]
    exact atoiRVal_intToString (n + 1)
  have hsave2 := saveCookie_success_eq u ct cat v ts₂
    (hset (hset store (generateCookieKey u ct (if cat = "" then "default" else cat)) v
        (RVal.cookie ⟨v, if cat = "" then "default" else cat, ts₁⟩))
      (generateStatsKey u ct) (if cat = "" then "default" else cat)
      (RVal.str (intToString (n + 1)))) hv hsr2
  refine ⟨by rw [hsave1], ?_, ?_, ?_⟩
  · simp only [hsave1]
    simp only [hsave2]
  · simp only [hsave1, hsave2]
    have hfin : statRead
        (hset (hset (hset
            (hset store (generateCookieKey u ct (if cat = "" then "default" else cat)) v
              (RVal.cookie ⟨v, if cat = "" then "default" else cat, ts₁⟩))
            (generateStatsKey u ct) (if cat = "" then "default" else cat)
            (RVal.str (intToString (n + 1))))
          (generateCookieKey u ct (if cat = "" then "default" else cat)) v
          (RVal.cookie ⟨v, if cat = "" then "default" else cat, ts₂⟩))
          (generateStatsKey u ct) (if cat = "" then "default" else cat)
          (RVal.str (intToString (n + 1 + 1))))
        (generateStatsKey u ct) (if cat = "" then "default" else cat)
        = some (n + 1 + 1) := by
      unfold statRead
      rw [hget_hset_self]
      exact atoiRVal_intToString (n + 1 + 1)
    rw [hfin]
    exact congrArg some (by ring)
  · simp only [hsave1, hsave2]
    have hh : hgetall
        (hset (hset (hset
            (hset store (generateCookieKey u ct (if cat = "" then "default" else cat)) v
              (RVal.cookie ⟨v, if cat = "" then "default" else cat, ts₁⟩))
            (generateStatsKey u ct) (if cat = "" then "default" else cat)
            (RVal.str (intToString (n + 1))))
          (generateCookieKey u ct (if cat = "" then "default" else cat)) v
          (RVal.cookie ⟨v, if cat = "" then "default" else cat, ts₂⟩))
          (generateStatsKey u ct) (if cat = "" then "default" else cat)
          (RVal.str (intToString (n + 1 + 1))))
        (generateCookieKey u ct (if cat = "" then "default" else cat))
        = hashSet (hashSet
            (storeGetHash store
              (generateCookieKey u ct (if cat = "" then "default" else cat))) v
            (RVal.cookie ⟨v, if cat = "" then "default" else cat, ts₁⟩)) v
          (RVal.cookie ⟨v, if cat = "" then "default" else cat, ts₂⟩) := by
      rw [hgetall, storeGetHash_hset_ne _ _ _ hKne, storeGetHash_hset_self,
        storeGetHash_hset_ne _ _ _ hKne, storeGetHash_hset_self]
    rw [hh, filter_hashSet_self (nodup_fields_hashSet _ _ (wf_hash_nodup hwf _))]

/-- C4 witness: two saves of "v1" into category "work" on the empty keyspace end
with one stored entry, timestamped by the second save, and counter 0 + 2. -/
theorem double_save_overwrites_and_double_counts_w :
    (SaveCookie "u" "t" (Body.parsed "saveCookie" "work" "v1") 1 false false []).1
      = Response.success ∧
    (SaveCookie "u" "t" (Body.parsed "saveCookie" "work" "v1") 2 false false
      (SaveCookie "u" "t" (Body.parsed "saveCookie" "work" "v1") 1 false false []).2).1
      = Response.success ∧
    statRead (SaveCookie "u" "t" (Body.parsed "saveCookie" "work" "v1") 2 false false
        (SaveCookie "u" "t" (Body.parsed "saveCookie" "work" "v1") 1 false false []).2).2
      (generateStatsKey "u" "t") (if ("work" : String) = "" then "default" else "work")
      = some (0 + 2) ∧
    (hgetall (SaveCookie "u" "t" (Body.parsed "saveCookie" "work" "v1") 2 false false
        (SaveCookie "u" "t" (Body.parsed "saveCookie" "work" "v1") 1 false false []).2).2
        (generateCookieKey "u" "t"
          (if ("work" : String) = "" then "default" else "work"))).filter
        (fun p => p.1 == "v1")
      = [("v1", RVal.cookie
          ⟨"v1", if ("work" : String) = "" then "default" else "work", 2⟩)] :=
  double_save_overwrites_and_double_counts [] "u" "t" "work" "v1" 1 2 0
    (by decide) (by decide) (by decide)

/-- Reading `recordOK` on a marshalled record. -/
theorem recordOK_cookie {u ct k pf : String} {cc : CookieData}
    (h : recordOK u ct k (pf, RVal.cookie cc) = true) :
    cc.cookie = pf ∧ k = generateCookieKey u ct cc.category := by
  simp only [recordOK, Bool.and_eq_true, beq_iff_eq] at h
  exact h

/-- C2: over a well-formed keyspace obeying the namespace discipline that Save
maintains, with path identifiers free of glob metacharacters (so the unfiltered
scan pattern covers exactly this namespace), saving value v — into category c,
defaulted to "default" when empty — and then listing the namespace without filter
yields the saved record, with its category and its save-time timestamp, exactly
once: filtering the listing down to records carrying that value and category
leaves precisely the one saved record. -/
theorem save_then_list_exactly_once (store : Store) (u ct c v : String) (ts : Int)
    (rnd : Nat → Nat) (hwf : StoreWF store) (hns : NamespaceWF store u ct)
    (hug : GlobFree u) (hctg : GlobFree ct) (hv : v ≠ "") :
    (SaveCookie u ct (Body.parsed "saveCookie" c v) ts false false store).1
      = Response.success ∧
    ∃ l, GetCookies u ct "" "" "" rnd
        (SaveCookie u ct (Body.parsed "saveCookie" c v) ts false false store).2
      = Response.cookieList l ∧
      l.filter (fun r => r.cookie == v && r.category == (if c = "" then "default" else c))
        = [⟨v, if c = "" then "default" else c, ts⟩] := by
  have hsave : SaveCookie u ct (Body.parsed "saveCookie" c v) ts false false store
      = (Response.success,
        match hincrby
            (hset store (generateCookieKey u ct (if c = "" then "default" else c)) v
              (RVal.cookie ⟨v, if c = "" then "default" else c, ts⟩))
            (generateStatsKey u ct) (if c = "" then "default" else c) 1 with
        | some (s', _) => s'
        | none =>
          hset store (generateCookieKey u ct (if c = "" then "default" else c)) v
            (RVal.cookie ⟨v, if c = "" then "default" else c, ts⟩)) := by
    simp [SaveCookie, hv, jsonMarshalCookie]
  have hpatdata : (listBase u ct ++ ("*" : String)).data = (listBase u ct).data ++ ['*'] := by
    rw [strData_append]
  have hmfl : metaFree (listBase u ct).data := metaFree_listBase hug hctg
  have hsknm : globMatch (listBase u ct ++ ("*" : String)).data
      (generateStatsKey u ct).data = false := by
    cases hgm : globMatch (listBase u ct ++ ("*" : String)).data
        (generateStatsKey u ct).data with
    | false => rfl
    | true =>
      rw [hpatdata] at hgm
      have hst := (globMatch_trailing_star hmfl (listBase_data_ne_nil u ct) _).1 hgm
      rw [statsKey_not_starts_listBase] at hst
      exact Bool.noConfusion hst
  obtain ⟨S2, hS2eq, hS2agree, hS2keys⟩ :
      ∃ S2, SaveCookie u ct (Body.parsed "saveCookie" c v) ts false false store
          = (Response.success, S2) ∧
        (∀ x, x ≠ generateStatsKey u ct → storeGetHash S2 x = storeGetHash
          (hset store (generateCookieKey u ct (if c = "" then "default" else c)) v
            (RVal.cookie ⟨v, if c = "" then "default" else c, ts⟩)) x) ∧
        keysMatching S2 (listBase u ct ++ "*") = keysMatching
          (hset store (generateCookieKey u ct (if c = "" then "default" else c)) v
            (RVal.cookie ⟨v, if c = "" then "default" else c, ts⟩))
          (listBase u ct ++ "*") := by
    cases hi : hincrby
        (hset store (generateCookieKey u ct (if c = "" then "default" else c)) v
          (RVal.cookie ⟨v, if c = "" then "default" else c, ts⟩))
        (generateStatsKey u ct) (if c = "" then "default" else c) 1 with
    | none =>
      refine ⟨_, ?_, fun x _ => rfl, rfl⟩
      rw [hsave, hi]
    | some pr =>
      have hsh := hincrby_shape hi
      obtain ⟨s', m⟩ := pr
      have hs' : s' = hset
          (hset store (generateCookieKey u ct (if c = "" then "default" else c)) v
            (RVal.cookie ⟨v, if c = "" then "default" else c, ts⟩))
          (generateStatsKey u ct) (if c = "" then "default" else c)
          (RVal.str (intToString m)) := congrArg Prod.fst hsh
      refine ⟨s', ?_, ?_, ?_⟩
      · rw [hsave, hi]
      · intro x hx
        rw [hs']
        exact storeGetHash_hset_ne _ _ _ hx
      · rw [hs']
        exact keysMatching_hset_no_match hsknm
  have hknd1 : ((hset store (generateCookieKey u ct (if c = "" then "default" else c)) v
      (RVal.cookie ⟨v, if c = "" then "default" else c, ts⟩)).map Prod.fst).Nodup :=
    nodup_keys_hset _ _ _ hwf.1
  have hKstart : strStarts (listBase u ct).data
      (generateCookieKey u ct (if c = "" then "default" else c)).data = true := by
    rw [cookieKey_eq_listBase_append, strData_append]
    exact strStarts_append_self _ _
  have hKmem : generateCookieKey u ct (if c = "" then "default" else c)
      ∈ keysMatching
        (hset store (generateCookieKey u ct (if c = "" then "default" else c)) v
          (RVal.cookie ⟨v, if c = "" then "default" else c, ts⟩))
        (listBase u ct ++ "*") := by
    rw [mem_keysMatching]
    refine ⟨mem_keys_hset.2 (Or.inr rfl), ?_⟩
    rw [hpatdata, globMatch_trailing_star hmfl (listBase_data_ne_nil u ct)]
    exact hKstart
  have hstart_of_mem : ∀ k ∈ keysMatching
      (hset store (generateCookieKey u ct (if c = "" then "default" else c)) v
        (RVal.cookie ⟨v, if c = "" then "default" else c, ts⟩))
      (listBase u ct ++ "*"), strStarts (listBase u ct).data k.data = true := by
    intro k hk
    have hg := (mem_keysMatching.1 hk).2
    rw [hpatdata] at hg
    exact (globMatch_trailing_star hmfl (listBase_data_ne_nil u ct) _).1 hg
  have hkneSK : ∀ k ∈ keysMatching
      (hset store (generateCookieKey u ct (if c = "" then "default" else c)) v
        (RVal.cookie ⟨v, if c = "" then "default" else c, ts⟩))
      (listBase u ct ++ "*"), k ≠ generateStatsKey u ct := by
    intro k hk he
    have hs := hstart_of_mem k hk
    rw [he, statsKey_not_starts_listBase] at hs
    exact Bool.noConfusion hs
  have hcoll : collectCookies S2 (keysMatching S2 (listBase u ct ++ "*"))
      = collectCookies
          (hset store (generateCookieKey u ct (if c = "" then "default" else c)) v
            (RVal.cookie ⟨v, if c = "" then "default" else c, ts⟩))
          (keysMatching
            (hset store (generateCookieKey u ct (if c = "" then "default" else c)) v
              (RVal.cookie ⟨v, if c = "" then "default" else c, ts⟩))
            (listBase u ct ++ "*")) := by
    rw [hS2keys]
    exact collect_congr (fun k hk => hS2agree k (hkneSK k hk))
  have hres : GetCookies u ct "" "" "" rnd S2 = Response.cookieList
      (collectCookies S2 (keysMatching S2 (listBase u ct ++ "*"))) := by
    rw [getCookies_valid_shape S2 u ct "" "" "" rnd 0 (by rw [if_pos rfl])]
    simp
  have hfilter : (collectCookies
      (hset store (generateCookieKey u ct (if c = "" then "default" else c)) v
        (RVal.cookie ⟨v, if c = "" then "default" else c, ts⟩))
      (keysMatching
        (hset store (generateCookieKey u ct (if c = "" then "default" else c)) v
          (RVal.cookie ⟨v, if c = "" then "default" else c, ts⟩))
        (listBase u ct ++ "*"))).filter
      (fun r => r.cookie == v && r.category == (if c = "" then "default" else c))
      = [⟨v, if c = "" then "default" else c, ts⟩] := by
    apply filter_collect_single hKmem (nodup_keysMatching _ hknd1)
    · have hhk : hgetall
          (hset store (generateCookieKey u ct (if c = "" then "default" else c)) v
            (RVal.cookie ⟨v, if c = "" then "default" else c, ts⟩))
          (generateCookieKey u ct (if c = "" then "default" else c))
          = hashSet (storeGetHash store
              (generateCookieKey u ct (if c = "" then "default" else c))) v
            (RVal.cookie ⟨v, if c = "" then "default" else c, ts⟩) := by
        rw [hgetall]
        exact storeGetHash_hset_self _ _ _ _
      rw [hhk]
      apply hash_filterMap_filter_single
        (nodup_fields_hashSet _ _ (wf_hash_nodup hwf _)) (hashGet_hashSet_self _ _ _)
      · simp
      · intro p hp hpne cc hcc
        obtain ⟨pf, pv⟩ := p
        rcases mem_hashSet hp with hpd | hp₀
        · injection hpd with hpd1 _
          exact absurd hpd1 hpne
        · have hne0 : storeGetHash store
              (generateCookieKey u ct (if c = "" then "default" else c)) ≠ [] :=
            List.ne_nil_of_mem hp₀
          have hmem0 := mem_of_storeGetHash_ne_nil hne0
          have hrok := hns _ hmem0 hKstart (pf, pv) hp₀
          have hp2 : pv = RVal.cookie cc := by
            cases hval2 : pv with
            | str s => rw [hval2] at hcc; exact Option.noConfusion hcc
            | cookie c₂ =>
              rw [hval2] at hcc
              injection hcc with hcc
              rw [hcc]
          rw [hp2] at hrok
          obtain ⟨hcook, _⟩ := recordOK_cookie hrok
          simp only [hcook]
          simp [hpne]
    · intro k hk hkK
      have hhk : hgetall
          (hset store (generateCookieKey u ct (if c = "" then "default" else c)) v
            (RVal.cookie ⟨v, if c = "" then "default" else c, ts⟩)) k
          = storeGetHash store k := by
        rw [hgetall]
        exact storeGetHash_hset_ne _ _ _ hkK
      rw [hhk]
      apply hash_filterMap_filter_nil
      intro p hp cc hcc
      obtain ⟨pf, pv⟩ := p
      have hne0 : storeGetHash store k ≠ [] := List.ne_nil_of_mem hp
      have hmem0 := mem_of_storeGetHash_ne_nil hne0
      have hrok := hns _ hmem0 (hstart_of_mem k hk) (pf, pv) hp
      have hp2 : pv = RVal.cookie cc := by
        cases hval2 : pv with
        | str s => rw [hval2] at hcc; exact Option.noConfusion hcc
        | cookie c₂ =>
          rw [hval2] at hcc
          injection hcc with hcc
          rw [hcc]
      rw [hp2] at hrok
      obtain ⟨hcook, hkey⟩ := recordOK_cookie hrok
      have hkey' : k = generateCookieKey u ct cc.category := hkey
      by_cases hcat : cc.category = (if c = "" then "default" else c)
      · exact absurd (by rw [hkey', hcat]) hkK
      · simp [hcat]
  refine ⟨by rw [hS2eq], collectCookies S2 (keysMatching S2 (listBase u ct ++ "*")), ?_, ?_⟩
  · simp only [hS2eq]
    exact hres
  · rw [hcoll]
    exact hfilter

/-- C2 witness: saving "v1" with no category into the empty keyspace and listing
without filter returns exactly one default-category record timestamped 7. -/
theorem save_then_list_exactly_once_w :
    (SaveCookie "u" "t" (Body.parsed "saveCookie" "" "v1") 7 false false []).1
      = Response.success ∧
    ∃ l, GetCookies "u" "t" "" "" "" (fun _ => 0)
        (SaveCookie "u" "t" (Body.parsed "saveCookie" "" "v1") 7 false false []).2
      = Response.cookieList l ∧
      l.filter (fun r => r.cookie == "v1"
          && r.category == (if ("" : String) = "" then "default" else ""))
        = [⟨"v1", if ("" : String) = "" then "default" else "", 7⟩] :=
  save_then_list_exactly_once [] "u" "t" "" "v1" 7 (fun _ => 0) (by decide) (by decide)
    (by decide) (by decide) (by decide)

end NeutrinoCookie
